import Mathlib

/-!
Verification of the hierarchical-network conversion and comparison subsystem
of the cellmaps_utils repository (cellmaps_utils/ddotconverter.py,
cellmaps_utils/hidefconverter.py, cellmaps_utils/hcx_utils.py,
cellmaps_utils/hierdiff.py).

Shallow embedding conventions:
* Python strings are modelled as lists of characters (PyStr).  Python's
  str.split(' ') is List.splitOn ' ', Python's ' '.join is
  [' '].intercalate, and Python's argumentless str.split() (split on
  whitespace runs, dropping empty tokens) is modelled by splitting on the
  space character and dropping empty pieces (the strings it is applied to
  are fields of tab-separated lines, hence tab- and newline-free).
* Python floats are modelled as rationals; the arithmetic performed by the
  code (division of small integers, comparisons) is exact in this range.
* The CX2Network class of the external ndex2 library is modelled from the
  Network Model contract of the specification (section 4.1): an ordered
  node list with integer ids handed out consecutively, an edge list, a
  network attribute list, and name lookup returning the id of the node
  carrying the requested name.
* Fallible Python code (IndexError / ValueError / CellMapsError raising
  paths) returns Except.
* Text files are modelled as the list of their lines (newline-terminated
  on write, the trailing newline being removed again by the str.strip()
  call every reader performs on each line).
-/

/-- A Python string: list of characters. -/
abbrev PyStr := List Char

/-- Shorthand turning a Lean string literal into the PyStr model. -/
def pys (s : String) : PyStr := s.toList

/-- Python str.split(' ') (split on every single space, keeping empty
pieces; the empty string yields one empty piece). -/
def splitSp (s : PyStr) : List PyStr := s.splitOn ' '

/-- Python ' '.join. -/
def joinSp (ts : List PyStr) : PyStr := [' '].intercalate ts

/-- Python argumentless str.split() on tab/newline-free input: split on
spaces and drop empty pieces. -/
def splitWs (s : PyStr) : List PyStr := (s.splitOn ' ').filter (fun t => !t.isEmpty)

/-- Python '\t'.join, used when emitting tab-separated lines. -/
def joinTab (ts : List PyStr) : PyStr := ['\t'].intercalate ts

/-- Python str.split('\t'). -/
def splitTab (s : PyStr) : List PyStr := s.splitOn '\t'

/-- The characters Python str.strip() removes. -/
def pyIsSpace (c : Char) : Bool :=
  c = ' ' || c = '\t' || c = '\n' || c = '\r' || c = '\x0b' || c = '\x0c'

/-- Python str.strip(): drop leading and trailing whitespace. -/
def pyStrip (s : PyStr) : PyStr :=
  ((s.dropWhile pyIsSpace).reverse.dropWhile pyIsSpace).reverse

/-- Python str.lower() (ASCII lowering suffices for the edge-type literals
this code lowers). -/
def pyLower (s : PyStr) : PyStr := s.map Char.toLower

/-- Python "pat in s" substring containment. -/
def strHas (pat : PyStr) : PyStr → Bool
  | [] => pat.isEmpty
  | c :: cs => pat.isPrefixOf (c :: cs) || strHas pat cs

/-- Python truthiness of an optional string (None and the empty string are
falsy). -/
def optTruthy : Option PyStr → Bool
  | some (_ :: _) => true
  | _ => false

/-- Attribute record of one CX2 node; absent Python dictionary keys are
none.  Entries of the HCX::members list may themselves be Python None
(stored by code that appends a failed name lookup), hence Option Nat. -/
structure NodeAttrs where
  name : Option PyStr := none
  memberList : Option PyStr := none
  memberListSize : Option PyStr := none
  persistence : Option PyStr := none
  members : Option (List (Option Nat)) := none
  isRoot : Option Bool := none
  robustness : Option ℚ := none
  deriving DecidableEq, Repr

/-- One CX2 edge: source node id, target node id, optional interaction
attribute. -/
structure EdgeRec where
  s : Nat
  t : Nat
  interaction : Option PyStr := none
  deriving DecidableEq, Repr

/-- The CX2Network model (specification section 4.1): ordered node list
(id, attributes), edge list, network-level attribute list. -/
structure Network where
  nodes : List (Nat × NodeAttrs) := []
  edges : List EdgeRec := []
  netAttrs : List (PyStr × PyStr) := []
  deriving DecidableEq, Repr

/-- CX2Network.add_node: hands out the next consecutive id. -/
def addNode (net : Network) (attrs : NodeAttrs) : Network × Nat :=
  ({ net with nodes := net.nodes ++ [(net.nodes.length, attrs)] }, net.nodes.length)

/-- CX2Network.add_edge: appends the edge and returns its id (edge ids are
positions in the edge list). -/
def addEdge (net : Network) (s t : Nat) : Network × Nat :=
  ({ net with edges := net.edges ++ [{ s := s, t := t }] }, net.edges.length)

/-- CX2Network.lookup_node_id_by_name: id of the node carrying the name,
Python None when no node does. -/
def lookupNodeIdByName (net : Network) (nm : PyStr) : Option Nat :=
  (net.nodes.find? (fun p => p.2.name = some nm)).map (fun p => p.1)

/-- CX2Network.get_node restricted to the attribute record. -/
def getNode (net : Network) (nid : Nat) : Option NodeAttrs :=
  (net.nodes.find? (fun p => p.1 = nid)).map (fun p => p.2)

/-- CX2Network.add_node_attribute, specialised by the attribute key via the
update function. -/
def updateNode (net : Network) (nid : Nat) (f : NodeAttrs → NodeAttrs) : Network :=
  { net with nodes := net.nodes.map (fun p => if p.1 = nid then (p.1, f p.2) else p) }

/-- CX2Network.add_network_attribute. -/
def addNetAttr (net : Network) (k v : PyStr) : Network :=
  { net with netAttrs := net.netAttrs ++ [(k, v)] }

/-- Python exception kinds raised by the embedded code paths. -/
inductive PyErr where
  | indexError
  | valueError
  | cellMapsError
  | attributeError
  deriving DecidableEq, Repr

/-! ## Hierarchy Diff Engine (cellmaps_utils/hierdiff.py) -/

/-- HierarchyDiff._calculate_jaccard (hierdiff.py lines 21-37):
len(A & B) / len(A | B) if the union is non-empty, else 0. -/
def calculateJaccard (setA setB : Finset PyStr) : ℚ :=
  let overlap : ℕ := (setA ∩ setB).card
  let union : ℕ := (setA ∪ setB).card
  if union > 0 then (overlap : ℚ) / (union : ℚ) else 0

/-- The gene set _hierarchy_overlap extracts from a node:
set(attrs.get('CD_MemberList', '').split()). -/
def nodeGeneSet (a : NodeAttrs) : Finset PyStr :=
  (splitWs (a.memberList.getD [])).toFinset

/-- One entry of the pass/fail matrix of HierarchyDiff._hierarchy_overlap
(hierdiff.py lines 39-72): jaccard of the alternative node's gene set with
the reference node's (literal 0 unless both sets are non-empty), then
thresholded to 1 iff strictly above ji_thre. -/
def overlapPass (thre : ℚ) (altAttrs refAttrs : NodeAttrs) : ℕ :=
  let ont := nodeGeneSet altAttrs
  let comp := nodeGeneSet refAttrs
  let ji : ℚ := if ont.Nonempty ∧ comp.Nonempty then calculateJaccard ont comp else 0
  if ji > thre then 1 else 0

/-- Column-wise maximum of the pass/fail matrix (ji_df.max(axis=0)): the
best pass/fail value over all alternative-hierarchy nodes for one
reference node.  pandas yields NaN on an empty axis, so the model is used
only for alternatives holding at least one node (a hypothesis every
theorem about it carries). -/
def columnMax (thre : ℚ) (alt : Network) (refAttrs : NodeAttrs) : ℕ :=
  (alt.nodes.map (fun p => overlapPass thre p.2 refAttrs)).foldr max 0

/-- The robustness value compute_hierarchy_robustness assigns one reference
node: the sum over the alternative hierarchies of the column maxima,
divided by the number of alternatives. -/
def robustnessScore (alts : List Network) (thre : ℚ) (a : NodeAttrs) : ℚ :=
  ((alts.map (fun alt => (columnMax thre alt a : ℚ))).sum) / (alts.length : ℚ)

/-- HierarchyDiff.compute_hierarchy_robustness (hierdiff.py lines 74-104):
per reference node, sum the column maxima over all alternative hierarchies,
divide by their count, and stamp the quotient as the robustness node
attribute. -/
def computeHierarchyRobustness (ref : Network) (alts : List Network) (thre : ℚ) : Network :=
  { ref with nodes := ref.nodes.map (fun p =>
      (p.1, { p.2 with robustness := some (robustnessScore alts thre p.2) })) }

/-- HierarchyDiff.compare_hierarchies (hierdiff.py lines 106-129): stamp
each node of the first hierarchy with the column maximum of the pass/fail
matrix against the second hierarchy. -/
def compareHierarchies (a b : Network) (thre : ℚ) : Network :=
  { a with nodes := a.nodes.map (fun p =>
      (p.1, { p.2 with robustness := some ((columnMax thre b p.2 : ℚ)) })) }

/-! ## Lemmas about the diff engine -/

/-- jaccard is 0 whenever the intersection is empty. -/
theorem calculateJaccard_of_inter_empty {setA setB : Finset PyStr}
    (h : setA ∩ setB = ∅) : calculateJaccard setA setB = 0 := by
  unfold calculateJaccard
  rw [h]
  simp

/-- jaccard of a non-empty set with itself is 1. -/
theorem calculateJaccard_self {s : Finset PyStr} (h : s.Nonempty) :
    calculateJaccard s s = 1 := by
  unfold calculateJaccard
  have hc : 0 < s.card := Finset.card_pos.mpr h
  simp only [Finset.inter_self, Finset.union_self]
  rw [if_pos hc]
  exact div_self (by exact_mod_cast hc.ne')

/-- The non-empty guard in _hierarchy_overlap is redundant: jaccard is 0 on
an empty operand anyway. -/
theorem overlapPass_eq (thre : ℚ) (qa pa : NodeAttrs) :
    overlapPass thre qa pa =
      if calculateJaccard (nodeGeneSet qa) (nodeGeneSet pa) > thre then 1 else 0 := by
  unfold overlapPass
  by_cases h : (nodeGeneSet qa).Nonempty ∧ (nodeGeneSet pa).Nonempty
  · simp [h]
  · have hz : calculateJaccard (nodeGeneSet qa) (nodeGeneSet pa) = 0 := by
      rcases not_and_or.mp h with h1 | h1
      · exact calculateJaccard_of_inter_empty (by
          rw [Finset.not_nonempty_iff_eq_empty.mp h1]; exact Finset.empty_inter _)
      · exact calculateJaccard_of_inter_empty (by
          rw [Finset.not_nonempty_iff_eq_empty.mp h1]; exact Finset.inter_empty _)
    simp [h, hz]

theorem foldr_max_zero_one {l : List ℕ} (h : ∀ x ∈ l, x = 0 ∨ x = 1) :
    l.foldr max 0 = if 1 ∈ l then 1 else 0 := by
  induction l with
  | nil => simp
  | cons a l ih =>
    have ha := h a (by simp)
    have ih' := ih (fun x hx => h x (by simp [hx]))
    rcases ha with ha | ha <;> subst ha <;>
      simp only [List.foldr_cons, ih'] <;>
      by_cases hex : 1 ∈ l <;>
      simp [hex]

/-- columnMax is the indicator of the alternative hierarchy holding a node
whose jaccard with the reference node strictly exceeds the threshold. -/
theorem columnMax_eq (thre : ℚ) (alt : Network) (pa : NodeAttrs) :
    columnMax thre alt pa =
      if ∃ q ∈ alt.nodes, calculateJaccard (nodeGeneSet q.2) (nodeGeneSet pa) > thre
      then 1 else 0 := by
  unfold columnMax
  rw [foldr_max_zero_one (by
    intro x hx
    rcases List.mem_map.mp hx with ⟨q, _, rfl⟩
    rw [overlapPass_eq]
    split <;> simp)]
  congr 1
  simp only [List.mem_map, eq_iff_iff]
  constructor
  · rintro ⟨q, hq, hx1⟩
    refine ⟨q, hq, ?_⟩
    rw [overlapPass_eq] at hx1
    by_contra hc
    simp [hc] at hx1
  · rintro ⟨q, hq, hgt⟩
    exact ⟨q, hq, by rw [overlapPass_eq, if_pos hgt]⟩

/-- The robustness quotient equals the count of passing alternatives over
the ensemble size. -/
theorem robustnessScore_eq (alts : List Network) (thre : ℚ) (pa : NodeAttrs) :
    robustnessScore alts thre pa =
      ((alts.countP (fun alt => decide (∃ q ∈ alt.nodes,
          calculateJaccard (nodeGeneSet q.2) (nodeGeneSet pa) > thre)) : ℕ) : ℚ)
        / (alts.length : ℚ) := by
  unfold robustnessScore
  congr 1
  induction alts with
  | nil => simp
  | cons a l ih =>
    rw [List.map_cons, List.sum_cons, ih, List.countP_cons, columnMax_eq]
    by_cases h : ∃ q ∈ a.nodes, calculateJaccard (nodeGeneSet q.2) (nodeGeneSet pa) > thre
    · simp [h, add_comm]
    · simp [h]

/-! ## Claim theorems for the diff engine -/

/-- Claim C5: _calculate_jaccard equals the intersection-over-union ratio:
it lies in [0, 1] for non-empty sets, equals 1 on identical non-empty sets,
equals 0 on disjoint sets, returns 0 rather than an error when both sets
are empty, and evaluates to 1/3 on the pair {g1, g2}, {g2, g3}. -/
theorem c5_jaccard_spec :
    (∀ setA setB : Finset PyStr,
      (setA.Nonempty → setB.Nonempty →
        0 ≤ calculateJaccard setA setB ∧ calculateJaccard setA setB ≤ 1) ∧
      (setA.Nonempty → calculateJaccard setA setA = 1) ∧
      (setA ∩ setB = ∅ → calculateJaccard setA setB = 0)) ∧
    calculateJaccard (∅ : Finset PyStr) ∅ = 0 ∧
    calculateJaccard {pys "g1", pys "g2"} {pys "g2", pys "g3"} = 1 / 3 := by
  refine ⟨fun setA setB => ⟨?_, ?_, ?_⟩, ?_, ?_⟩
  · intro hA _
    have hu : 0 < (setA ∪ setB).card :=
      Finset.card_pos.mpr (hA.mono Finset.subset_union_left)
    unfold calculateJaccard
    rw [if_pos hu]
    constructor
    · positivity
    · rw [div_le_one (by exact_mod_cast hu)]
      exact_mod_cast Finset.card_le_card Finset.inter_subset_union
  · exact fun h => calculateJaccard_self h
  · exact fun h => calculateJaccard_of_inter_empty h
  · simp [calculateJaccard]
  · have h1 : ({pys "g1", pys "g2"} ∩ {pys "g2", pys "g3"} : Finset PyStr).card = 1 := by
      decide
    have h2 : ({pys "g1", pys "g2"} ∪ {pys "g2", pys "g3"} : Finset PyStr).card = 3 := by
      decide
    unfold calculateJaccard
    rw [h1, h2]
    norm_num

theorem c5_jaccard_spec_witness :
    (0 ≤ calculateJaccard {pys "a"} {pys "b"} ∧
      calculateJaccard {pys "a"} {pys "b"} ≤ 1) ∧
    calculateJaccard {pys "a"} {pys "a"} = 1 ∧
    calculateJaccard {pys "a"} {pys "b"} = 0 :=
  ⟨(c5_jaccard_spec.1 {pys "a"} {pys "b"}).1 (by decide) (by decide),
   (c5_jaccard_spec.1 {pys "a"} {pys "a"}).2.1 (by decide),
   (c5_jaccard_spec.1 {pys "a"} {pys "b"}).2.2 (by decide)⟩

/-- Claim C7: compare_hierarchies(a, b, threshold) and
compute_hierarchy_robustness(a, [b], threshold) assign every node of a the
same robustness value: the two functions coincide for ensemble size 1.
(The hypothesis that b holds at least one node keeps the statement inside
the NaN-free domain the rational model covers: pandas max over an empty
axis is NaN.) -/
theorem c7_compare_matches_compute (a b : Network) (thre : ℚ)
    (hb : b.nodes ≠ []) :
    compareHierarchies a b thre = computeHierarchyRobustness a [b] thre := by
  unfold compareHierarchies computeHierarchyRobustness robustnessScore
  simp

theorem c7_compare_matches_compute_witness :
    compareHierarchies
        { nodes := [(0, { name := some (pys "A"), memberList := some (pys "g1") })] }
        { nodes := [(0, { name := some (pys "B"), memberList := some (pys "g1") })] }
        (2/5) =
      computeHierarchyRobustness
        { nodes := [(0, { name := some (pys "A"), memberList := some (pys "g1") })] }
        [{ nodes := [(0, { name := some (pys "B"), memberList := some (pys "g1") })] }]
        (2/5) :=
  c7_compare_matches_compute _ _ _ (by decide)

/-- Claim C6 (amended): for a non-empty ensemble of alternative hierarchies
each holding at least one node, compute_hierarchy_robustness stamps every
reference node with (number of alternatives holding a node whose jaccard
with the reference node strictly exceeds the threshold) / k; the score lies
in [0, 1] and equals 1 when the threshold is below 1 and every alternative
holds a node of identical non-empty membership. -/
theorem c6_robustness_spec (ref : Network) (alts : List Network) (thre : ℚ)
    (hk : alts ≠ []) (hne : ∀ alt ∈ alts, alt.nodes ≠ []) :
    ∀ p ∈ ref.nodes, ∃ r : ℚ,
      (p.1, { p.2 with robustness := some r })
          ∈ (computeHierarchyRobustness ref alts thre).nodes ∧
      r = ((alts.countP (fun alt => decide (∃ q ∈ alt.nodes,
            calculateJaccard (nodeGeneSet q.2) (nodeGeneSet p.2) > thre)) : ℕ) : ℚ)
          / (alts.length : ℚ) ∧
      0 ≤ r ∧ r ≤ 1 ∧
      (thre < 1 →
        (∀ alt ∈ alts, ∃ q ∈ alt.nodes,
          nodeGeneSet q.2 = nodeGeneSet p.2 ∧ (nodeGeneSet p.2).Nonempty) →
        r = 1) := by
  intro p hp
  have hlen : 0 < (alts.length : ℚ) := by
    exact_mod_cast List.length_pos.mpr hk
  refine ⟨robustnessScore alts thre p.2, ?_, robustnessScore_eq alts thre p.2, ?_, ?_, ?_⟩
  · unfold computeHierarchyRobustness
    exact List.mem_map_of_mem _ hp
  · rw [robustnessScore_eq]
    positivity
  · rw [robustnessScore_eq]
    rw [div_le_one hlen]
    exact_mod_cast List.countP_le_length _
  · intro hthre hident
    rw [robustnessScore_eq]
    have hcnt : alts.countP (fun alt => decide (∃ q ∈ alt.nodes,
        calculateJaccard (nodeGeneSet q.2) (nodeGeneSet p.2) > thre)) = alts.length := by
      rw [List.countP_eq_length]
      intro alt halt
      rcases hident alt halt with ⟨q, hq, heq, hne2⟩
      simp only [decide_eq_true_eq]
      refine ⟨q, hq, ?_⟩
      rw [heq, calculateJaccard_self hne2]
      exact hthre
    rw [hcnt]
    exact div_self hlen.ne'

/-- Attribute record of the single node of the concrete hierarchy used to
instantiate the Claim C6 theorems. -/
def c6Attrs : NodeAttrs :=
  { name := some (pys "A"), memberList := some (pys "g1") }

/-- Concrete reference hierarchy used to refute Claim C6 as stated. -/
def c6Net : Network :=
  { nodes := [(0, c6Attrs)] }

/-- Claim C6 as frozen is false at threshold 1: the single alternative
hierarchy holds a node of identical non-empty membership to the reference
node, yet the stamped robustness is 0, not 1 (jaccard of identical sets is
1, which does not strictly exceed the threshold 1). -/
theorem c6_counterexample :
    (∀ alt ∈ [c6Net], ∃ q ∈ alt.nodes,
        nodeGeneSet q.2 = nodeGeneSet c6Attrs ∧ (nodeGeneSet c6Attrs).Nonempty) ∧
    ((computeHierarchyRobustness c6Net [c6Net] 1).nodes.map
        (fun p => p.2.robustness)) = [some 0] := by
  constructor
  · decide
  · have hpass : overlapPass 1 c6Attrs c6Attrs = 0 := by
      rw [overlapPass_eq]
      rw [calculateJaccard_self (by decide)]
      simp
    unfold computeHierarchyRobustness c6Net robustnessScore columnMax
    simp [hpass]

theorem c6_robustness_spec_witness :
    ∃ r : ℚ,
      (0, { c6Attrs with robustness := some r })
          ∈ (computeHierarchyRobustness c6Net [c6Net] (2/5)).nodes ∧
      r = (([c6Net].countP (fun alt => decide (∃ q ∈ alt.nodes,
            calculateJaccard (nodeGeneSet q.2) (nodeGeneSet c6Attrs)
                > (2/5))) : ℕ) : ℚ) / (([c6Net] : List Network).length : ℚ) ∧
      0 ≤ r ∧ r ≤ 1 ∧
      ((2/5 : ℚ) < 1 →
        (∀ alt ∈ [c6Net], ∃ q ∈ alt.nodes,
          nodeGeneSet q.2 = nodeGeneSet c6Attrs ∧ (nodeGeneSet c6Attrs).Nonempty) →
        r = 1) :=
  c6_robustness_spec c6Net [c6Net] (2/5) (by decide) (by decide)
    (0, c6Attrs) (by decide)

/-! ## HCX annotator (cellmaps_utils/hcx_utils.py) and member aggregation
(cellmaps_utils/ddotconverter.py) -/

/-- DDOTToHierarchyConverter._get_children_of_node (ddotconverter.py lines
239-257): depth-first collection of all strict descendants, following
edges from source to target.  The unbounded Python recursion (which
terminates only when the hierarchy below the node is acyclic) is given an
explicit recursion budget; with a sufficient budget the computed set is
the full reachable set, which is what the Python call returns whenever it
terminates.  The Python "already collected" guard only skips redundant
recursive calls and does not change the resulting set at sufficient
budget. -/
def getChildrenOfNode (edges : List EdgeRec) : Nat → Nat → Finset Nat
  | 0, _ => ∅
  | fuel + 1, nodeId =>
    (edges.filter (fun e => e.s = nodeId)).foldl
      (fun acc e => acc ∪ insert e.t (getChildrenOfNode edges fuel e.t)) ∅

/-- The gene tokens one node contributes to _get_memberlists_from_nodes:
set(member_list.split(' ')) for a present CD_MemberList, nothing when the
attribute is absent (the continue branch). -/
def perNodeTokens (X : Network) (nid : Nat) : List PyStr :=
  match (getNode X nid).bind (fun a => a.memberList) with
  | none => []
  | some ml => splitSp ml

/-- DDOTToHierarchyConverter._get_memberlists_from_nodes (ddotconverter.py
lines 259-285): union of the CD_MemberList gene tokens over the node set
(nodes lacking the attribute are skipped), paired with the set of
interactome name lookups of those genes (the lookup result is added
unconditionally, so a failed lookup stores Python None).  Python iterates
its sets in unspecified order; the model lists each set in first-occurrence
order, and every claim compares these lists as sets. -/
def getMemberlistsFromNodes (h interactome : Network) (nodeSet : List Nat) :
    List PyStr × List (Option Nat) :=
  let genes := ((nodeSet.map (perNodeTokens h)).flatten).dedup
  (genes, (genes.map (fun g => lookupNodeIdByName interactome g)).dedup)

/-- The descendant DFS as the list of nodes in discovery order (possibly
with repetitions, which the set-building aggregation downstream ignores):
the enumeration of the Python child set that _update_memberlist iterates.
Its membership coincides with getChildrenOfNode (proved below). -/
def getChildrenList (edges : List EdgeRec) : Nat → Nat → List Nat
  | 0, _ => []
  | fuel + 1, nodeId =>
    (edges.filter (fun e => e.s = nodeId)).foldl
      (fun acc e => acc ++ e.t :: getChildrenList edges fuel e.t) []

/-- One iteration of the _update_memberlist loop at one node: collect the
node plus its descendants, aggregate their member lists, and write back
the space-joined gene list and the member-id list.  (Python iterates the
descendant set in unspecified order; the model iterates it in DFS
discovery order, and every claim compares the results as sets.) -/
def umStep (fuel : Nat) (interactome : Network) (acc : Network) (nid : Nat) : Network :=
  let childrenNodes := nid :: getChildrenList acc.edges fuel nid
  let ml := getMemberlistsFromNodes acc interactome childrenNodes
  updateNode acc nid (fun a =>
    { a with memberList := some (joinSp ml.1), members := some ml.2 })

/-- DDOTToHierarchyConverter._update_memberlist (ddotconverter.py lines
224-237): the loop over all nodes in order.  The loop mutates the very
node table it reads, so later nodes see the already-updated member lists
of earlier ones; the fold models that faithfully. -/
def updateMemberlist (fuel : Nat) (h interactome : Network) : Network :=
  (h.nodes.map (fun p => p.1)).foldl (umStep fuel interactome) h

/-- get_root_nodes (hcx_utils.py lines 63-81): all node ids minus the ids
appearing as the target of an edge.  HiDeFToHierarchyConverter._get_root_nodes
(hidefconverter.py lines 267-284) is the verbatim same computation. -/
def getRootNodes (h : Network) : Finset Nat :=
  let allNodes := (h.nodes.map (fun p => p.1)).toFinset
  let nodesWithTargets := (h.edges.map (fun e => e.t)).toFinset
  allNodes \ nodesWithTargets

/-- add_isroot_node_attribute (hcx_utils.py lines 84-97): stamp HCX::isRoot
on every node, true iff the id is in the root set. -/
def addIsrootNodeAttribute (h : Network) (rootNodes : Finset Nat) : Network :=
  { h with nodes := h.nodes.map (fun p =>
      (p.1, { p.2 with isRoot := some (p.1 ∈ rootNodes) })) }

/-- add_hcx_network_annotations (hcx_utils.py lines 100-138): raise when
neither a uuid nor an interactome is supplied; stamp schema and file-count
attributes; stamp the remote linkage when host and uuid are both truthy,
otherwise serialize the interactome (a side effect outside the model, an
AttributeError if it is None) and stamp the embedded-file linkage. -/
def addHcxNetworkAnnotations (h : Network) (interactome : Option Network)
    (interactomeName : PyStr) (host uuid : Option PyStr) : Except PyErr Network :=
  if uuid = none ∧ interactome = none then .error .cellMapsError
  else
    let h2 := addNetAttr (addNetAttr h (pys "ndexSchema") (pys "hierarchy_v0.1"))
      (pys "HCX::modelFileCount") (pys "2")
    if optTruthy host ∧ optTruthy uuid then
      .ok (addNetAttr (addNetAttr h2 (pys "HCX::interactionNetworkHost") (host.getD []))
            (pys "HCX::interactionNetworkUUID") (uuid.getD []))
    else
      match interactome with
      | none => .error .attributeError
      | some _ => .ok (addNetAttr h2 (pys "HCX::interactionNetworkName") interactomeName)

/-- add_hcx_members_annotation (hcx_utils.py lines 141-159): stamp
HCX::members on every node with the interactome ids of the genes in its
CD_MemberList, appending only lookups that resolved (failed lookups are
dropped here, unlike in the converters). -/
def addHcxMembersAnnotation (h interactome : Network) : Network :=
  { h with nodes := h.nodes.map (fun p =>
      (p.1, { p.2 with members := some (((splitSp (p.2.memberList.getD [])).filterMap
        (fun g => lookupNodeIdByName interactome g)).map (fun x => some x)) })) }

/-- The hypothesis of the tree half of Claim C8: the hierarchy's edges form
a single tree rooted at r (r is a node, edge endpoints are nodes, nothing
points at r, every other node has exactly one incoming edge, and every
other node is a descendant of r). -/
def isSingleRootedTree (h : Network) (r : Nat) : Prop :=
  r ∈ h.nodes.map (fun p => p.1) ∧
  (∀ e ∈ h.edges, e.s ∈ h.nodes.map (fun p => p.1) ∧ e.t ∈ h.nodes.map (fun p => p.1)) ∧
  (∀ e ∈ h.edges, e.t ≠ r) ∧
  (∀ p ∈ h.nodes, p.1 ≠ r → (h.edges.filter (fun e => e.t = p.1)).length = 1) ∧
  (∀ p ∈ h.nodes, p.1 ≠ r → p.1 ∈ getChildrenOfNode h.edges h.nodes.length r)

/-! ## Claim theorems: root inference and network annotations -/

/-- Claim C8: get_root_nodes returns exactly the node ids that are the
target of no edge (all node ids minus the edge targets), and on a
hierarchy whose edges form a single tree rooted at r it returns exactly
the singleton containing r. -/
theorem c8_root_nodes (h : Network) (r n : Nat) :
    (n ∈ getRootNodes h ↔
      n ∈ h.nodes.map (fun p => p.1) ∧ ∀ e ∈ h.edges, e.t ≠ n) ∧
    (isSingleRootedTree h r → getRootNodes h = {r}) := by
  have hchar : ∀ m : Nat, m ∈ getRootNodes h ↔
      m ∈ h.nodes.map (fun p => p.1) ∧ ∀ e ∈ h.edges, e.t ≠ m := by
    intro m
    unfold getRootNodes
    simp only [Finset.mem_sdiff, List.mem_toFinset, List.mem_map]
    constructor
    · rintro ⟨h1, h2⟩
      refine ⟨h1, fun e he het => h2 ⟨e, he, het⟩⟩
    · rintro ⟨h1, h2⟩
      exact ⟨h1, fun ⟨e, he, het⟩ => h2 e he het⟩
  refine ⟨hchar n, fun ht => ?_⟩
  obtain ⟨hr, hends, hnotr, hindeg, _⟩ := ht
  ext m
  rw [hchar m, Finset.mem_singleton]
  constructor
  · rintro ⟨hm, hnotarget⟩
    by_contra hne
    rcases List.mem_map.mp hm with ⟨p, hp, rfl⟩
    have hlen := hindeg p hp hne
    have : (h.edges.filter (fun e => e.t = p.1)) ≠ [] := by
      intro hnil
      rw [hnil] at hlen
      simp at hlen
    rcases List.exists_mem_of_ne_nil _ this with ⟨e, he⟩
    have hmem := List.mem_filter.mp he
    exact hnotarget e hmem.1 (by simpa using hmem.2)
  · rintro rfl
    exact ⟨hr, hnotr⟩

/-- Concrete two-edge tree used to instantiate the Claim C8 theorem. -/
def c8Net : Network :=
  { nodes := [(0, {}), (1, {}), (2, {})], edges := [{ s := 0, t := 1 }, { s := 0, t := 2 }] }

theorem c8_root_nodes_witness :
    (0 ∈ getRootNodes c8Net ↔
      0 ∈ c8Net.nodes.map (fun p => p.1) ∧ ∀ e ∈ c8Net.edges, e.t ≠ 0) ∧
    getRootNodes c8Net = {0} :=
  ⟨(c8_root_nodes c8Net 0 0).1,
   (c8_root_nodes c8Net 0 0).2 ⟨by decide, by decide, by decide, by decide, by decide⟩⟩

/-- Membership in the key list after one add_network_attribute call. -/
theorem mem_map_fst_addNetAttr {net : Network} {k v a : PyStr} :
    a ∈ (addNetAttr net k v).netAttrs.map (fun p => p.1) ↔
      a ∈ net.netAttrs.map (fun p => p.1) ∨ a = k := by
  simp [addNetAttr]

/-- Claim C4 as frozen is false on the code: calling
add_hcx_network_annotations with an interactome AND a truthy host+uuid
simultaneously does not raise; it stamps the remote linkage attributes. -/
theorem c4_counterexample :
    addHcxNetworkAnnotations {} (some {}) (pys "parent.cx2")
        (some (pys "ndexbio.org")) (some (pys "uuid1")) =
      .ok { netAttrs := [(pys "ndexSchema", pys "hierarchy_v0.1"),
                         (pys "HCX::modelFileCount", pys "2"),
                         (pys "HCX::interactionNetworkHost", pys "ndexbio.org"),
                         (pys "HCX::interactionNetworkUUID", pys "uuid1")] } := by
  rfl

/-- Claim C4 (amended): add_hcx_network_annotations raises a configuration
error (before stamping anything) when neither a uuid nor an interactome is
given; when both a remote linkage (truthy host and uuid) and an
interactome are supplied it does NOT raise: it stamps the remote linkage
attributes and leaves the embedded-file linkage attribute unstamped. -/
theorem c4_annotations_spec (h : Network) (i : Option Network) (nm : PyStr)
    (host uuid : Option PyStr) :
    (uuid = none ∧ i = none →
      addHcxNetworkAnnotations h i nm host uuid = .error .cellMapsError) ∧
    (optTruthy host = true → optTruthy uuid = true →
      ∃ net, addHcxNetworkAnnotations h i nm host uuid = .ok net ∧
        (pys "HCX::interactionNetworkHost", host.getD []) ∈ net.netAttrs ∧
        (pys "HCX::interactionNetworkUUID", uuid.getD []) ∈ net.netAttrs ∧
        (pys "HCX::interactionNetworkName" ∉ h.netAttrs.map (fun p => p.1) →
          pys "HCX::interactionNetworkName" ∉ net.netAttrs.map (fun p => p.1))) := by
  constructor
  · rintro ⟨h1, h2⟩
    unfold addHcxNetworkAnnotations
    rw [if_pos ⟨h1, h2⟩]
  · intro hhost huuid
    have hu : ¬(uuid = none ∧ i = none) := by
      rintro ⟨h1, _⟩
      rw [h1] at huuid
      simp [optTruthy] at huuid
    unfold addHcxNetworkAnnotations
    rw [if_neg hu, if_pos ⟨hhost, huuid⟩]
    refine ⟨_, rfl, ?_, ?_, ?_⟩
    · simp [addNetAttr]
    · simp [addNetAttr]
    · intro hnot hc
      rw [mem_map_fst_addNetAttr, mem_map_fst_addNetAttr, mem_map_fst_addNetAttr,
        mem_map_fst_addNetAttr] at hc
      rcases hc with (((hc | hc) | hc) | hc) | hc
      · exact hnot hc
      all_goals exact absurd hc (by decide)

theorem c4_annotations_spec_witness :
    addHcxNetworkAnnotations {} none (pys "parent.cx2") (some (pys "h")) none =
        .error .cellMapsError ∧
    ∃ net, addHcxNetworkAnnotations {} none (pys "parent.cx2")
        (some (pys "h")) (some (pys "u")) = .ok net ∧
      (pys "HCX::interactionNetworkHost",
        (some (pys "h")).getD []) ∈ net.netAttrs ∧
      (pys "HCX::interactionNetworkUUID",
        (some (pys "u")).getD []) ∈ net.netAttrs ∧
      (pys "HCX::interactionNetworkName" ∉
          (List.map (fun p => p.1) (Network.netAttrs {})) →
        pys "HCX::interactionNetworkName" ∉ net.netAttrs.map (fun p => p.1)) :=
  ⟨(c4_annotations_spec {} none (pys "parent.cx2") (some (pys "h")) none).1
      ⟨rfl, rfl⟩,
   (c4_annotations_spec {} none (pys "parent.cx2") (some (pys "h"))
      (some (pys "u"))).2 (by decide) (by decide)⟩

/-! ## DDOT converters (cellmaps_utils/ddotconverter.py) -/

/-- The resolve-or-create idiom every converter uses: look the name up and
reuse the node, else create a node carrying only the name. -/
def resolveOrCreateNode (net : Network) (nm : PyStr) : Network × Nat :=
  match lookupNodeIdByName net nm with
  | some nid => (net, nid)
  | none => addNode net { name := some nm }

/-- CX2Network.add_edge_attribute specialised to the interaction key. -/
def setEdgeInteraction (net : Network) (eid : Nat) (v : PyStr) : Network :=
  { net with edges := net.edges.mapIdx (fun i e =>
      if i = eid then { e with interaction := some v } else e) }

/-- Line-by-line processing of a text file, stopping at the first raised
exception. -/
def processLines (f : Network → PyStr → Except PyErr Network) :
    Network → List PyStr → Except PyErr Network
  | net, [] => .ok net
  | net, l :: ls =>
    match f net l with
    | .error e => .error e
    | .ok net2 => processLines f net2 ls

/-- One line of DDOTToInteractomeConverter.generate_interactome_file
(ddotconverter.py lines 63-81): tab-split the stripped line, resolve or
create both endpoint nodes, add the edge, and when the line has at least 3
fields set the edge's interaction attribute to parts[3] (the literal
index the source uses; parts[3] raises IndexError on a 3-field line). -/
def ddotInteractomeLine (net : Network) (line : PyStr) : Except PyErr Network :=
  let parts := splitTab (pyStrip line)
  match parts.get? 0 with
  | none => .error .indexError
  | some p0 =>
  match parts.get? 1 with
  | none => .error .indexError
  | some p1 =>
    let r1 := resolveOrCreateNode net p0
    let r2 := resolveOrCreateNode r1.1 p1
    let r3 := addEdge r2.1 r1.2 r2.2
    if parts.length ≥ 3 then
      match parts.get? 3 with
      | none => .error .indexError
      | some p3 => .ok (setEdgeInteraction r3.1 r3.2 p3)
    else .ok r3.1

/-- DDOTToInteractomeConverter.generate_interactome_file on the list of
input lines. -/
def generateInteractomeFile (lines : List PyStr) : Except PyErr Network :=
  processLines ddotInteractomeLine {} lines

/-- The name generate_ontology_ddot_file renders for a node:
attrs.get('name', node_id), the integer id being rendered by str(). -/
def nodeDisplayName (nid : Nat) (a : NodeAttrs) : PyStr :=
  a.name.getD (pys (toString nid))

/-- Display name of a node id inside a network.  A dangling id would make
Python raise (get_node returns None); the model falls back to the rendered
id, and every theorem touching edges carries an endpoint-closure
hypothesis. -/
def nameOfNode (h : Network) (nid : Nat) : PyStr :=
  match getNode h nid with
  | some a => nodeDisplayName nid a
  | none => pys (toString nid)

/-- HierarchyToDDOTConverter.generate_ontology_ddot_file (ddotconverter.py
lines 100-121): one default line per edge (pass 1), then one gene line per
gene token of each node's CD_MemberList (pass 2), the token list being
attrs.get('CD_MemberList', '').split(' '). -/
def generateOntologyDdotFile (h : Network) : List PyStr :=
  h.edges.map (fun e => joinTab [nameOfNode h e.s, nameOfNode h e.t, pys "default"])
    ++ (h.nodes.map (fun p =>
        (splitSp (p.2.memberList.getD [])).map (fun g =>
          joinTab [nodeDisplayName p.1 p.2, g, pys "gene"]))).flatten

/-- One line of DDOTToHierarchyConverter._get_hierarchy (ddotconverter.py
lines 193-216): unpack exactly three tab-separated fields (ValueError
otherwise); a line whose type contains "gene" (case-insensitive) appends
the target gene to the source node's CD_MemberList and the raw interactome
lookup of the gene (Python None when unresolved) to HCX::members, silently
skipping the line when the source node does not exist; any other line
resolves or creates both hierarchy nodes and adds the edge.  The gene
branch reads HCX::members with a default empty list: in this flow the two
attributes are always set together, so the Python KeyError path is
unreachable. -/
def ddotHierarchyLine (interactome : Network) (h : Network) (line : PyStr) :
    Except PyErr Network :=
  match splitTab (pyStrip line) with
  | [source, target, edgeType] =>
    if strHas (pys "gene") (pyLower edgeType) then
      match lookupNodeIdByName h source with
      | none => .ok h
      | some sid =>
        match getNode h sid with
        | none => .ok h
        | some attrs =>
          let tid := lookupNodeIdByName interactome target
          match attrs.memberList with
          | none =>
            .ok (updateNode h sid (fun a =>
              { a with memberList := some target, members := some [tid] }))
          | some ml =>
            .ok (updateNode h sid (fun a =>
              { a with memberList := some (ml ++ ' ' :: target),
                       members := some ((attrs.members.getD []) ++ [tid]) }))
    else
      let r1 := resolveOrCreateNode h source
      let r2 := resolveOrCreateNode r1.1 target
      .ok (addEdge r2.1 r1.2 r2.2).1
  | _ => .error .valueError

/-- DDOTToHierarchyConverter._get_hierarchy (ddotconverter.py lines
182-222): parse all lines into a fresh hierarchy, re-aggregate the member
lists, and stamp HCX::isRoot.  The recursion budget handed to the
descendant DFS is the node count: on the acyclic hierarchies on which the
Python recursion terminates, every descendant is reached via a repetition-
free path, so this budget yields the full descendant sets. -/
def ddotGetHierarchy (interactome : Network) (lines : List PyStr) :
    Except PyErr Network :=
  match processLines (ddotHierarchyLine interactome) {} lines with
  | .error e => .error e
  | .ok h =>
    let h1 := updateMemberlist h.nodes.length h interactome
    .ok (addIsrootNodeAttribute h1 (getRootNodes h1))

/-! ## Claim theorems: DDOT converters -/

/-- Claim C2 concerns a code defect: generate_interactome_file reads
parts[3] after splitting the line on tabs (ddotconverter.py line 80), so a
line with exactly 3 fields raises IndexError instead of attaching the
third field (index 2) as the interaction attribute, and on a line with at
least 4 fields it attaches the fourth field, not the third. -/
theorem c2_parts3_defect :
    generateInteractomeFile [pys "A\tB\tppi"] = .error .indexError ∧
    (generateInteractomeFile [pys "A\tB\tppi\textra"]).map
        (fun net => net.edges.map (fun e => e.interaction)) =
      .ok [some (pys "extra")] := by
  constructor
  · rfl
  · rfl

/-- Claim C10: a node whose CD_MemberList is absent or empty still makes
generate_ontology_ddot_file emit exactly one membership line for it, with
an empty gene field (name, tab, tab, gene), because splitting the empty
string on a single space yields one empty token. -/
theorem c10_empty_memberlist_line (h : Network) (nid : Nat) (a : NodeAttrs)
    (hmem : (nid, a) ∈ h.nodes)
    (hml : a.memberList = none ∨ a.memberList = some []) :
    ((splitSp (a.memberList.getD [])).map (fun g =>
        joinTab [nodeDisplayName nid a, g, pys "gene"]))
      = [joinTab [nodeDisplayName nid a, [], pys "gene"]] ∧
    joinTab [nodeDisplayName nid a, [], pys "gene"] ∈ generateOntologyDdotFile h ∧
    joinTab [nodeDisplayName nid a, [], pys "gene"]
      = nodeDisplayName nid a ++ '\t' :: '\t' :: pys "gene" := by
  have hsplit : splitSp (a.memberList.getD []) = [[]] := by
    rcases hml with hml | hml <;> rw [hml] <;> rfl
  refine ⟨by rw [hsplit]; rfl, ?_, by simp [joinTab, List.intercalate]⟩
  unfold generateOntologyDdotFile
  refine List.mem_append_right _ (List.mem_flatten.mpr ⟨_, List.mem_map_of_mem _ hmem, ?_⟩)
  rw [hsplit]
  simp

/-- Concrete one-node hierarchy without CD_MemberList used to instantiate
the Claim C10 theorem. -/
def c10Net : Network :=
  { nodes := [(7, { name := some (pys "A") })] }

theorem c10_empty_memberlist_line_witness :
    ((splitSp ((({ name := some (pys "A") } : NodeAttrs).memberList).getD [])).map
        (fun g => joinTab [nodeDisplayName 7 { name := some (pys "A") }, g, pys "gene"]))
      = [joinTab [nodeDisplayName 7 { name := some (pys "A") }, [], pys "gene"]] ∧
    joinTab [nodeDisplayName 7 { name := some (pys "A") }, [], pys "gene"]
      ∈ generateOntologyDdotFile c10Net ∧
    joinTab [nodeDisplayName 7 { name := some (pys "A") }, [], pys "gene"]
      = nodeDisplayName 7 { name := some (pys "A") } ++ '\t' :: '\t' :: pys "gene" :=
  c10_empty_memberlist_line c10Net 7 { name := some (pys "A") } (by decide) (Or.inl rfl)

/-! ## Lemmas: splitting, joining, and the descendant DFS -/

/-- Pieces produced by splitOn never contain the separator. -/
theorem not_mem_of_mem_splitOn {x : Char} {l t : PyStr}
    (ht : t ∈ l.splitOn x) : x ∉ t := by
  unfold List.splitOn at ht
  induction l generalizing t with
  | nil =>
    rw [List.splitOnP_nil, List.mem_singleton] at ht
    subst ht
    simp
  | cons c cs ih =>
    rw [List.splitOnP_cons] at ht
    by_cases hc : (c == x) = true
    · rw [if_pos hc] at ht
      rcases List.mem_cons.mp ht with rfl | ht2
      · simp
      · exact ih ht2
    · rw [if_neg hc] at ht
      cases hcs : cs.splitOnP (· == x) with
      | nil => exact absurd hcs (List.splitOnP_ne_nil _ _)
      | cons hd tl =>
        rw [hcs] at ht
        rcases List.mem_cons.mp ht with rfl | ht2
        · intro hmem
          rcases List.mem_cons.mp hmem with rfl | hmem2
          · simp at hc
          · exact ih (by rw [hcs]; exact List.mem_cons_self hd tl) hmem2
        · exact ih (by rw [hcs]; exact List.mem_cons_of_mem hd ht2)

theorem splitSp_ne_nil (s : PyStr) : splitSp s ≠ [] := by
  unfold splitSp List.splitOn
  exact List.splitOnP_ne_nil _ _

theorem space_not_mem_of_mem_splitSp {s t : PyStr} (h : t ∈ splitSp s) :
    ' ' ∉ t :=
  not_mem_of_mem_splitOn h

/-- Splitting on spaces undoes a space-join of non-empty, space-free
tokens. -/
theorem splitSp_joinSp {g : List PyStr} (hg : g ≠ [])
    (hsp : ∀ t ∈ g, ' ' ∉ t) : splitSp (joinSp g) = g := by
  unfold splitSp joinSp
  exact List.splitOn_intercalate g ' ' hsp hg

theorem mem_foldl_union {β : Type} (g : β → Finset Nat) (l : List β)
    (init : Finset Nat) (m : Nat) :
    m ∈ l.foldl (fun acc e => acc ∪ g e) init ↔ m ∈ init ∨ ∃ e ∈ l, m ∈ g e := by
  induction l generalizing init with
  | nil => simp
  | cons a l ih =>
    rw [List.foldl_cons, ih]
    simp only [Finset.mem_union, List.mem_cons]
    constructor
    · rintro ((h | h) | ⟨e, he, hm⟩)
      · exact Or.inl h
      · exact Or.inr ⟨a, Or.inl rfl, h⟩
      · exact Or.inr ⟨e, Or.inr he, hm⟩
    · rintro (h | ⟨e, rfl | he, hm⟩)
      · exact Or.inl (Or.inl h)
      · exact Or.inl (Or.inr hm)
      · exact Or.inr ⟨e, he, hm⟩

/-- Membership in one more level of the descendant DFS. -/
theorem mem_children_succ {edges : List EdgeRec} {fuel n m : Nat} :
    m ∈ getChildrenOfNode edges (fuel + 1) n ↔
      ∃ e ∈ edges, e.s = n ∧ (m = e.t ∨ m ∈ getChildrenOfNode edges fuel e.t) := by
  show m ∈ (edges.filter (fun e => e.s = n)).foldl
      (fun acc e => acc ∪ insert e.t (getChildrenOfNode edges fuel e.t)) ∅ ↔ _
  rw [mem_foldl_union]
  simp only [Finset.not_mem_empty, false_or, List.mem_filter, decide_eq_true_eq,
    Finset.mem_insert]
  constructor
  · rintro ⟨e, ⟨he, hs⟩, hm⟩
    exact ⟨e, he, hs, hm⟩
  · rintro ⟨e, he, hs, hm⟩
    exact ⟨e, ⟨he, hs⟩, hm⟩

theorem children_zero {edges : List EdgeRec} {n : Nat} :
    getChildrenOfNode edges 0 n = ∅ := rfl

theorem children_mono_succ {edges : List EdgeRec} :
    ∀ {fuel n}, getChildrenOfNode edges fuel n ⊆ getChildrenOfNode edges (fuel + 1) n := by
  intro fuel
  induction fuel with
  | zero => intro n m hm; rw [children_zero] at hm; exact absurd hm (Finset.not_mem_empty m)
  | succ f ih =>
    intro n m hm
    rw [mem_children_succ] at hm ⊢
    obtain ⟨e, he, hs, hmt⟩ := hm
    exact ⟨e, he, hs, hmt.imp id (fun h2 => ih h2)⟩

theorem children_mono {edges : List EdgeRec} {f g : Nat} (hfg : f ≤ g) {n : Nat} :
    getChildrenOfNode edges f n ⊆ getChildrenOfNode edges g n := by
  induction g with
  | zero => rw [Nat.le_zero.mp hfg]
  | succ g ih =>
    rcases Nat.lt_or_ge f (g + 1) with hlt | hge
    · exact (ih (Nat.lt_succ_iff.mp hlt)).trans children_mono_succ
    · rw [Nat.le_antisymm hfg hge]

/-- Descendants of descendants are reachable with added budget. -/
theorem children_add {edges : List EdgeRec} :
    ∀ {f : Nat} {g n m k : Nat}, m ∈ getChildrenOfNode edges f n →
      k ∈ getChildrenOfNode edges g m → k ∈ getChildrenOfNode edges (f + g) n := by
  intro f
  induction f with
  | zero =>
    intro g n m k hm
    exact absurd hm (Finset.not_mem_empty m)
  | succ f ih =>
    intro g n m k hm hk
    rw [mem_children_succ] at hm
    obtain ⟨e, he, hs, hmt⟩ := hm
    have : k ∈ getChildrenOfNode edges (f + g) e.t := by
      rcases hmt with rfl | hmt
      · exact children_mono (Nat.le_add_left g f) hk
      · exact ih hmt hk
    rw [Nat.succ_add, mem_children_succ]
    exact ⟨e, he, hs, Or.inr this⟩

/-- The saturation hypothesis standing in for termination of the unbounded
Python DFS: one more unit of budget adds nothing at any edge source (hence,
as the next lemmas show, at any node and for any added budget).  On an
acyclic edge list this holds for any budget of at least the node count. -/
def childrenSaturated (edges : List EdgeRec) (F : Nat) : Prop :=
  ∀ e ∈ edges, getChildrenOfNode edges (F + 1) e.s = getChildrenOfNode edges F e.s

instance (edges : List EdgeRec) (F : Nat) : Decidable (childrenSaturated edges F) := by
  unfold childrenSaturated
  infer_instance

theorem children_empty_of_no_src {edges : List EdgeRec} {n : Nat}
    (h : ∀ e ∈ edges, e.s ≠ n) : ∀ f, getChildrenOfNode edges f n = ∅ := by
  intro f
  cases f with
  | zero => rfl
  | succ f =>
    ext m
    rw [mem_children_succ]
    simp only [Finset.not_mem_empty, iff_false, not_exists]
    rintro e ⟨he, hs, _⟩
    exact h e he hs

theorem saturated_all {edges : List EdgeRec} {F : Nat}
    (hsat : childrenSaturated edges F) (n : Nat) :
    getChildrenOfNode edges (F + 1) n = getChildrenOfNode edges F n := by
  by_cases h : ∃ e ∈ edges, e.s = n
  · obtain ⟨e, he, rfl⟩ := h
    exact hsat e he
  · push_neg at h
    rw [children_empty_of_no_src h, children_empty_of_no_src h]

theorem saturated_ge {edges : List EdgeRec} {F : Nat}
    (hsat : childrenSaturated edges F) :
    ∀ (k : Nat) (n : Nat), getChildrenOfNode edges (F + k) n = getChildrenOfNode edges F n := by
  intro k
  induction k with
  | zero => intro n; rfl
  | succ k ih =>
    intro n
    ext m
    have hs : F + (k + 1) = (F + k) + 1 := rfl
    rw [hs, mem_children_succ]
    simp only [ih]
    rw [← mem_children_succ, saturated_all hsat]

/-- Under saturation the descendant sets are transitively closed. -/
theorem children_trans {edges : List EdgeRec} {F : Nat}
    (hsat : childrenSaturated edges F) {n m : Nat}
    (hm : m ∈ getChildrenOfNode edges F n) :
    getChildrenOfNode edges F m ⊆ getChildrenOfNode edges F n := by
  intro k hk
  have h2 := children_add hm hk
  rwa [saturated_ge hsat F n] at h2

/-! ## Lemmas: node table updates -/

theorem find?_map_update {l : List (Nat × NodeAttrs)} {nid k : Nat}
    {f : NodeAttrs → NodeAttrs} :
    ((l.map (fun p => if p.1 = nid then (p.1, f p.2) else p)).find?
        (fun p => p.1 = k)).map (fun p => p.2) =
      if k = nid then
        ((l.find? (fun p => p.1 = k)).map (fun p => p.2)).map f
      else (l.find? (fun p => p.1 = k)).map (fun p => p.2) := by
  induction l with
  | nil => simp only [List.map_nil, List.find?_nil, Option.map_none]; split <;> rfl
  | cons p l ih =>
    simp only [List.map_cons]
    by_cases hpk : p.1 = k
    · by_cases hpn : p.1 = nid
      · rw [if_pos hpn]
        have hkn : k = nid := hpk ▸ hpn
        rw [List.find?_cons_of_pos _ (by simpa using hpk),
          List.find?_cons_of_pos _ (by simpa using hpk), if_pos hkn]
        rfl
      · rw [if_neg hpn]
        have hkn : ¬ k = nid := fun hc => hpn (hpk.trans hc)
        rw [List.find?_cons_of_pos _ (by simpa using hpk),
          List.find?_cons_of_pos _ (by simpa using hpk), if_neg hkn]
    · by_cases hpn : p.1 = nid
      · rw [if_pos hpn]
        rw [List.find?_cons_of_neg _ (by simpa using hpk),
          List.find?_cons_of_neg _ (by simpa using hpk)]
        exact ih
      · rw [if_neg hpn]
        rw [List.find?_cons_of_neg _ (by simpa using hpk),
          List.find?_cons_of_neg _ (by simpa using hpk)]
        exact ih

theorem getNode_updateNode (X : Network) (nid : Nat) (f : NodeAttrs → NodeAttrs)
    (k : Nat) :
    getNode (updateNode X nid f) k =
      if k = nid then (getNode X k).map f else getNode X k := by
  unfold getNode updateNode
  exact find?_map_update

theorem updateNode_edges (X : Network) (nid : Nat) (f : NodeAttrs → NodeAttrs) :
    (updateNode X nid f).edges = X.edges := rfl

theorem updateNode_ids (X : Network) (nid : Nat) (f : NodeAttrs → NodeAttrs) :
    (updateNode X nid f).nodes.map (fun p => p.1) = X.nodes.map (fun p => p.1) := by
  unfold updateNode
  rw [List.map_map]
  exact List.map_congr_left (fun p _ => by by_cases hp : p.1 = nid <;> simp [hp])

theorem getNode_eq_none_of_not_mem {X : Network} {k : Nat}
    (h : k ∉ X.nodes.map (fun p => p.1)) : getNode X k = none := by
  unfold getNode
  have hfind : X.nodes.find? (fun p => p.1 = k) = none :=
    List.find?_eq_none.mpr (fun p hp hpk =>
      h (List.mem_map.mpr ⟨p, hp, by simpa using hpk⟩))
  rw [hfind]
  rfl

theorem getNode_isSome_of_mem {X : Network} {k : Nat}
    (h : k ∈ X.nodes.map (fun p => p.1)) : ∃ a, getNode X k = some a := by
  unfold getNode
  rcases List.mem_map.mp h with ⟨p, hp, rfl⟩
  have hsome : (X.nodes.find? (fun q => q.1 = p.1)).isSome = true := by
    rw [List.find?_isSome]
    exact ⟨p, hp, by simp⟩
  rcases Option.isSome_iff_exists.mp hsome with ⟨q, hq⟩
  exact ⟨q.2, by rw [hq]; rfl⟩

/-- When found, the node record is an entry of the node table. -/
theorem getNode_mem {X : Network} {k : Nat} {a : NodeAttrs}
    (h : getNode X k = some a) : (k, a) ∈ X.nodes := by
  unfold getNode at h
  rcases Option.map_eq_some'.mp h with ⟨p, hp, rfl⟩
  have hmem := List.mem_of_find?_eq_some hp
  have hpred := List.find?_some hp
  have : p.1 = k := by simpa using hpred
  rw [← this]
  exact hmem

/-! ## The member-aggregation invariant (Claims C9 and C1) -/

/-- The node-plus-descendants set one _update_memberlist iteration
aggregates over. -/
def descSet (h : Network) (F : Nat) (n : Nat) : Finset Nat :=
  insert n (getChildrenOfNode h.edges F n)

/-- The gene-token set a node's aggregate settles to: the union of the
initial token sets over the node and its descendants. -/
def aggTokens (h : Network) (F : Nat) (n : Nat) : Finset PyStr :=
  (descSet h F n).biUnion (fun d => (perNodeTokens h d).toFinset)

/-- Node n of state X carries the settled aggregate of node n of h: a
non-empty space-free token list whose set is the aggregate, joined into
CD_MemberList, and the member-id list whose set is the image of the
aggregate under interactome lookup. -/
def updatedAt (h i : Network) (F : Nat) (X : Network) (n : Nat) : Prop :=
  ∃ g : List PyStr, g ≠ [] ∧ (∀ t ∈ g, ' ' ∉ t) ∧ g.toFinset = aggTokens h F n ∧
    ∃ a : NodeAttrs, getNode X n = some a ∧ a.memberList = some (joinSp g) ∧
      ∃ m : List (Option Nat), a.members = some m ∧
        m.toFinset = (aggTokens h F n).image (lookupNodeIdByName i)

/-- Invariant maintained along the _update_memberlist loop: edges and the
id sequence are untouched, and every node either still carries its initial
attributes or its settled aggregate. -/
def stateOk (h i : Network) (F : Nat) (X : Network) : Prop :=
  X.edges = h.edges ∧
  X.nodes.map (fun p => p.1) = h.nodes.map (fun p => p.1) ∧
  ∀ n ∈ h.nodes.map (fun p => p.1), getNode X n = getNode h n ∨ updatedAt h i F X n

theorem descSet_trans {h : Network} {F : Nat}
    (hsat : childrenSaturated h.edges F) {n d : Nat}
    (hd : d ∈ descSet h F n) : descSet h F d ⊆ descSet h F n := by
  unfold descSet at *
  rcases Finset.mem_insert.mp hd with rfl | hd2
  · exact Finset.Subset.refl _
  · intro e he
    rcases Finset.mem_insert.mp he with rfl | he2
    · exact Finset.mem_insert_of_mem hd2
    · exact Finset.mem_insert_of_mem (children_trans hsat hd2 he2)

theorem aggTokens_mono {h : Network} {F : Nat} {n d : Nat}
    (hsub : descSet h F d ⊆ descSet h F n) :
    aggTokens h F d ⊆ aggTokens h F n :=
  Finset.biUnion_subset_biUnion_of_subset_left _ hsub

theorem perNodeTokens_spacefree (X : Network) (d : Nat) :
    ∀ t ∈ perNodeTokens X d, ' ' ∉ t := by
  unfold perNodeTokens
  cases hm : (getNode X d).bind (fun a => a.memberList) with
  | none => simp
  | some ml => exact fun t ht => space_not_mem_of_mem_splitSp ht

theorem updatedAt_perNodeTokens {h i : Network} {F : Nat} {X : Network} {n : Nat}
    (hu : updatedAt h i F X n) :
    (perNodeTokens X n).toFinset = aggTokens h F n ∧ perNodeTokens X n ≠ [] := by
  obtain ⟨g, hgne, hgsp, hgset, a, ha, haml, m, ham, hmset⟩ := hu
  have hb : (getNode X n).bind (fun a => a.memberList) = some (joinSp g) := by
    rw [ha, Option.some_bind, haml]
  have hpt : perNodeTokens X n = splitSp (joinSp g) := by
    unfold perNodeTokens
    rw [hb]
  rw [hpt, splitSp_joinSp hgne hgsp]
  exact ⟨hgset, hgne⟩

theorem perNodeTokens_congr {X Y : Network} {n : Nat}
    (hn : getNode X n = getNode Y n) : perNodeTokens X n = perNodeTokens Y n := by
  unfold perNodeTokens
  rw [hn]

/-- In any loop state, a node's current tokens contain its initial
tokens. -/
theorem perNodeTokens_lower {h i : Network} {F : Nat} {X : Network}
    (hX : stateOk h i F X) (d : Nat) :
    (perNodeTokens h d).toFinset ⊆ (perNodeTokens X d).toFinset := by
  obtain ⟨hXe, hXids, hXn⟩ := hX
  by_cases hd : d ∈ h.nodes.map (fun p => p.1)
  · rcases hXn d hd with heq | hupd
    · rw [perNodeTokens_congr heq]
    · rw [(updatedAt_perNodeTokens hupd).1]
      exact Finset.subset_biUnion_of_mem (fun e => (perNodeTokens h e).toFinset)
        (Finset.mem_insert_self d _)
  · have hX0 : getNode X d = none :=
      getNode_eq_none_of_not_mem (by rwa [hXids])
    have hh0 : getNode h d = none := getNode_eq_none_of_not_mem hd
    have : perNodeTokens X d = perNodeTokens h d :=
      perNodeTokens_congr (by rw [hX0, hh0])
    rw [this]

/-- In any loop state, the current tokens of a member of a descendant set
stay inside that set's settled aggregate. -/
theorem perNodeTokens_upper {h i : Network} {F : Nat} {X : Network}
    (hsat : childrenSaturated h.edges F) (hX : stateOk h i F X)
    {d nid : Nat} (hd : d ∈ descSet h F nid) :
    (perNodeTokens X d).toFinset ⊆ aggTokens h F nid := by
  obtain ⟨hXe, hXids, hXn⟩ := hX
  by_cases hdm : d ∈ h.nodes.map (fun p => p.1)
  · rcases hXn d hdm with heq | hupd
    · rw [perNodeTokens_congr heq]
      exact Finset.subset_biUnion_of_mem (fun e => (perNodeTokens h e).toFinset) hd
    · rw [(updatedAt_perNodeTokens hupd).1]
      exact aggTokens_mono (descSet_trans hsat hd)
  · have hX0 : getNode X d = none :=
      getNode_eq_none_of_not_mem (by rwa [hXids])
    have : perNodeTokens X d = [] := by
      unfold perNodeTokens
      rw [hX0]
      rfl
    rw [this]
    simp

/-- In any loop state, a live node's token list is non-empty (initially by
the every-node-carries-CD_MemberList hypothesis, afterwards because the
written aggregate is non-empty). -/
theorem perNodeTokens_ne_nil {h i : Network} {F : Nat} {X : Network}
    (hX : stateOk h i F X)
    (hml : ∀ p ∈ h.nodes, p.2.memberList.isSome = true)
    {nid : Nat} (hnid : nid ∈ h.nodes.map (fun p => p.1)) :
    perNodeTokens X nid ≠ [] := by
  obtain ⟨hXe, hXids, hXn⟩ := hX
  rcases hXn nid hnid with heq | hupd
  · rw [perNodeTokens_congr heq]
    obtain ⟨a, ha⟩ := getNode_isSome_of_mem hnid
    have hmem := getNode_mem ha
    have hsome := hml _ hmem
    obtain ⟨ml, hamls⟩ := Option.isSome_iff_exists.mp hsome
    have : perNodeTokens h nid = splitSp ml := by
      unfold perNodeTokens
      rw [ha, Option.some_bind, hamls]
    rw [this]
    exact splitSp_ne_nil ml
  · exact (updatedAt_perNodeTokens hupd).2

/-- umStep re-expressed through updateNode. -/
theorem umStep_eq (F : Nat) (i X : Network) (nid : Nat) :
    umStep F i X nid = updateNode X nid (fun a =>
      { a with
        memberList := some (joinSp (getMemberlistsFromNodes X i
          (nid :: getChildrenList X.edges F nid)).1),
        members := some (getMemberlistsFromNodes X i
          (nid :: getChildrenList X.edges F nid)).2 }) :=
  rfl

theorem mem_foldl_append {β : Type} (g : β → List Nat) (l : List β)
    (init : List Nat) (m : Nat) :
    m ∈ l.foldl (fun acc e => acc ++ g e) init ↔ m ∈ init ∨ ∃ e ∈ l, m ∈ g e := by
  induction l generalizing init with
  | nil => simp
  | cons a l ih =>
    rw [List.foldl_cons, ih]
    simp only [List.mem_append, List.mem_cons]
    constructor
    · rintro ((h | h) | ⟨e, he, hm⟩)
      exacts [Or.inl h, Or.inr ⟨a, Or.inl rfl, h⟩, Or.inr ⟨e, Or.inr he, hm⟩]
    · rintro (h | ⟨e, rfl | he, hm⟩)
      exacts [Or.inl (Or.inl h), Or.inl (Or.inr hm), Or.inr ⟨e, he, hm⟩]

/-- The DFS list and the DFS set hold the same nodes. -/
theorem mem_getChildrenList {edges : List EdgeRec} :
    ∀ {fuel n m : Nat},
      m ∈ getChildrenList edges fuel n ↔ m ∈ getChildrenOfNode edges fuel n := by
  intro fuel
  induction fuel with
  | zero =>
    intro n m
    show m ∈ ([] : List Nat) ↔ m ∈ (∅ : Finset Nat)
    simp
  | succ f ih =>
    intro n m
    have h2 : m ∈ getChildrenList edges (f + 1) n ↔
        m ∈ ([] : List Nat) ∨ ∃ e ∈ edges.filter (fun e => e.s = n),
          m ∈ e.t :: getChildrenList edges f e.t :=
      mem_foldl_append (fun (e : EdgeRec) => e.t :: getChildrenList edges f e.t)
        (edges.filter (fun e => e.s = n)) [] m
    rw [h2, mem_children_succ]
    simp only [List.not_mem_nil, false_or, List.mem_filter, List.mem_cons,
      decide_eq_true_eq]
    constructor
    · rintro ⟨e, ⟨he, hs⟩, rfl | hm⟩
      · exact ⟨e, he, hs, Or.inl rfl⟩
      · exact ⟨e, he, hs, Or.inr (ih.mp hm)⟩
    · rintro ⟨e, he, hs, rfl | hm⟩
      · exact ⟨e, ⟨he, hs⟩, Or.inl rfl⟩
      · exact ⟨e, ⟨he, hs⟩, Or.inr (ih.mpr hm)⟩

/-- One _update_memberlist iteration preserves the loop invariant, settles
the processed node, and leaves every other node untouched. -/
theorem umStep_spec {h i : Network} {F : Nat}
    (hsat : childrenSaturated h.edges F)
    (hml : ∀ p ∈ h.nodes, p.2.memberList.isSome = true)
    {X : Network} (hX : stateOk h i F X) {nid : Nat}
    (hnid : nid ∈ h.nodes.map (fun p => p.1)) :
    stateOk h i F (umStep F i X nid) ∧ updatedAt h i F (umStep F i X nid) nid ∧
    (∀ n, n ≠ nid → getNode (umStep F i X nid) n = getNode X n) := by
  have hXe := hX.1
  have hXids := hX.2.1
  have hD : ∀ d, d ∈ (nid :: getChildrenList X.edges F nid) ↔ d ∈ descSet h F nid := by
    intro d
    rw [List.mem_cons, mem_getChildrenList]
    unfold descSet
    rw [hXe, Finset.mem_insert]
  set genes := (getMemberlistsFromNodes X i
    (nid :: getChildrenList X.edges F nid)).1 with hgenes
  set mids := (getMemberlistsFromNodes X i
    (nid :: getChildrenList X.edges F nid)).2 with hmids
  have hmemgenes : ∀ x, x ∈ genes ↔ ∃ d ∈ descSet h F nid, x ∈ perNodeTokens X d := by
    intro x
    rw [hgenes]
    unfold getMemberlistsFromNodes
    simp only [List.mem_dedup, List.mem_flatten, List.mem_map]
    constructor
    · rintro ⟨l, ⟨d, hd, rfl⟩, hx⟩
      rw [hD] at hd
      exact ⟨d, hd, hx⟩
    · rintro ⟨d, hd, hx⟩
      refine ⟨perNodeTokens X d, ⟨d, ?_, rfl⟩, hx⟩
      rw [hD]
      exact hd
  have hsetgenes : genes.toFinset = aggTokens h F nid := by
    ext x
    rw [List.mem_toFinset, hmemgenes x]
    constructor
    · rintro ⟨d, hd, hx⟩
      exact perNodeTokens_upper hsat hX hd (List.mem_toFinset.mpr hx)
    · intro hx
      rcases Finset.mem_biUnion.mp hx with ⟨d, hd, hxd⟩
      exact ⟨d, hd, List.mem_toFinset.mp (perNodeTokens_lower hX d hxd)⟩
  have hne : genes ≠ [] := by
    obtain ⟨t, ht⟩ := List.exists_mem_of_ne_nil _ (perNodeTokens_ne_nil hX hml hnid)
    exact List.ne_nil_of_mem ((hmemgenes t).mpr ⟨nid, Finset.mem_insert_self _ _, ht⟩)
  have hsp : ∀ t ∈ genes, ' ' ∉ t := by
    intro t ht
    obtain ⟨d, _, htd⟩ := (hmemgenes t).mp ht
    exact perNodeTokens_spacefree X d t htd
  have hmidset : mids.toFinset = (aggTokens h F nid).image (lookupNodeIdByName i) := by
    rw [hmids]
    show ((genes.map (fun g => lookupNodeIdByName i g)).dedup).toFinset = _
    rw [← hsetgenes]
    ext x
    simp [List.mem_dedup]
  have hother : ∀ n, n ≠ nid → getNode (umStep F i X nid) n = getNode X n := by
    intro n hn
    rw [umStep_eq, getNode_updateNode, if_neg hn]
  obtain ⟨a0, ha0⟩ := getNode_isSome_of_mem (show nid ∈ X.nodes.map (fun p => p.1) by
    rw [hXids]; exact hnid)
  have hgn : getNode (umStep F i X nid) nid =
      some { a0 with memberList := some (joinSp genes), members := some mids } := by
    rw [umStep_eq, getNode_updateNode, if_pos rfl, ha0]
    rfl
  have hupd : updatedAt h i F (umStep F i X nid) nid :=
    ⟨genes, hne, hsp, hsetgenes, _, hgn, rfl, mids, rfl, hmidset⟩
  refine ⟨⟨?_, ?_, ?_⟩, hupd, hother⟩
  · rw [umStep_eq, updateNode_edges, hXe]
  · rw [umStep_eq, updateNode_ids, hXids]
  · intro n hn
    by_cases hcase : n = nid
    · subst hcase
      exact Or.inr hupd
    · rcases hX.2.2 n hn with heq | hcarry
      · exact Or.inl (by rw [hother n hcase, heq])
      · obtain ⟨g, h1, h2, h3, a, ha, h4, m, h5, h6⟩ := hcarry
        exact Or.inr ⟨g, h1, h2, h3, a, by rw [hother n hcase]; exact ha, h4, m, h5, h6⟩

/-- The _update_memberlist loop settles every processed node and keeps
settled nodes settled. -/
theorem umFold_spec {h i : Network} {F : Nat}
    (hsat : childrenSaturated h.edges F)
    (hml : ∀ p ∈ h.nodes, p.2.memberList.isSome = true) :
    ∀ (l : List Nat) (X : Network), stateOk h i F X →
      (∀ n ∈ l, n ∈ h.nodes.map (fun p => p.1)) →
      stateOk h i F (l.foldl (umStep F i) X) ∧
      (∀ n, updatedAt h i F X n → updatedAt h i F (l.foldl (umStep F i) X) n) ∧
      (∀ n ∈ l, updatedAt h i F (l.foldl (umStep F i) X) n) := by
  intro l
  induction l with
  | nil =>
    intro X hX _
    exact ⟨hX, fun n hu => hu, by simp⟩
  | cons a l ih =>
    intro X hX hl
    have ha := hl a (List.mem_cons_self a l)
    obtain ⟨hX2, hupd2, hother⟩ := umStep_spec hsat hml hX ha
    have hpers : ∀ n, updatedAt h i F X n → updatedAt h i F (umStep F i X a) n := by
      intro n hu
      by_cases hcase : n = a
      · subst hcase
        exact hupd2
      · obtain ⟨g, h1, h2, h3, b, hb, h4, m, h5, h6⟩ := hu
        exact ⟨g, h1, h2, h3, b, by rw [hother n hcase]; exact hb, h4, m, h5, h6⟩
    obtain ⟨hf1, hf2, hf3⟩ :=
      ih (umStep F i X a) hX2 (fun n hn => hl n (List.mem_cons_of_mem a hn))
    rw [List.foldl_cons]
    refine ⟨hf1, fun n hu => hf2 n (hpers n hu), ?_⟩
    intro n hn
    rcases List.mem_cons.mp hn with rfl | hn2
    · exact hf2 n hupd2
    · exact hf3 n hn2

/-- Token set of a node's stored CD_MemberList. -/
def mlTokenSet (X : Network) (n : Nat) : Option (Finset PyStr) :=
  ((getNode X n).bind (fun a => a.memberList)).map (fun ml => (splitSp ml).toFinset)

/-- Set of entries of a node's stored HCX::members list. -/
def memberIdSet (X : Network) (n : Nat) : Option (Finset (Option Nat)) :=
  ((getNode X n).bind (fun a => a.members)).map List.toFinset

theorem mlTokenSet_of_updatedAt {h i : Network} {F : Nat} {X : Network} {n : Nat}
    (hu : updatedAt h i F X n) :
    mlTokenSet X n = some (aggTokens h F n) ∧
    memberIdSet X n = some ((aggTokens h F n).image (lookupNodeIdByName i)) := by
  obtain ⟨g, hgne, hgsp, hgset, a, ha, haml, m, ham, hmset⟩ := hu
  constructor
  · unfold mlTokenSet
    rw [ha, Option.some_bind, haml]
    show some ((splitSp (joinSp g)).toFinset) = _
    rw [splitSp_joinSp hgne hgsp, hgset]
  · unfold memberIdSet
    rw [ha, Option.some_bind, ham]
    show some m.toFinset = _
    rw [hmset]

/-- Claim C9 (amended): on a hierarchy whose descendant DFS saturates at
the given budget (the bounded stand-in for termination on acyclic input)
and in which every node carries a CD_MemberList attribute, running
_update_memberlist a second time immediately after a first run leaves
every node's CD_MemberList token set and HCX::members entry set identical
to the result of the first run, both being the settled aggregate of the
node's descendant set. -/
theorem c9_update_memberlist_idempotent (h i : Network) (F : Nat)
    (hsat : childrenSaturated h.edges F)
    (hml : ∀ p ∈ h.nodes, p.2.memberList.isSome = true) :
    ∀ n ∈ h.nodes.map (fun p => p.1),
      mlTokenSet (updateMemberlist F (updateMemberlist F h i) i) n
        = mlTokenSet (updateMemberlist F h i) n ∧
      memberIdSet (updateMemberlist F (updateMemberlist F h i) i) n
        = memberIdSet (updateMemberlist F h i) n ∧
      mlTokenSet (updateMemberlist F h i) n = some (aggTokens h F n) := by
  intro n hn
  have hinit : stateOk h i F h := ⟨rfl, rfl, fun k _ => Or.inl rfl⟩
  obtain ⟨hr1ok, _, hr1upd⟩ :=
    umFold_spec hsat hml (h.nodes.map (fun p => p.1)) h hinit (fun x hx => hx)
  have hdefh : updateMemberlist F h i
      = (h.nodes.map (fun p => p.1)).foldl (umStep F i) h := rfl
  have hids : (updateMemberlist F h i).nodes.map (fun p => p.1)
      = h.nodes.map (fun p => p.1) := by
    rw [hdefh]
    exact hr1ok.2.1
  have hr1ok2 : stateOk h i F (updateMemberlist F h i) := by
    rw [hdefh]
    exact hr1ok
  obtain ⟨_, _, hr2upd⟩ :=
    umFold_spec hsat hml (h.nodes.map (fun p => p.1)) (updateMemberlist F h i)
      hr1ok2 (fun x hx => hx)
  have h1 := hr1upd n hn
  have h2 := hr2upd n hn
  have hr2eq : updateMemberlist F (updateMemberlist F h i) i
      = (h.nodes.map (fun p => p.1)).foldl (umStep F i) (updateMemberlist F h i) := by
    have e1 : updateMemberlist F (updateMemberlist F h i) i
        = ((updateMemberlist F h i).nodes.map (fun p => p.1)).foldl
            (umStep F i) (updateMemberlist F h i) := rfl
    rw [e1, hids]
  refine ⟨?_, ?_, ?_⟩
  · rw [hr2eq, (mlTokenSet_of_updatedAt h2).1, hdefh, (mlTokenSet_of_updatedAt h1).1]
  · rw [hr2eq, (mlTokenSet_of_updatedAt h2).2, hdefh, (mlTokenSet_of_updatedAt h1).2]
  · rw [hdefh]
    exact (mlTokenSet_of_updatedAt h1).1

/-- Hierarchy refuting Claim C9 as stated: an acyclic two-node chain whose
child node lacks CD_MemberList. -/
def c9Net : Network :=
  { nodes := [(0, { name := some (pys "A"), memberList := some (pys "g1") }),
              (1, { name := some (pys "B") })],
    edges := [{ s := 0, t := 1 }] }

/-- Claim C9 as frozen is false: on the acyclic hierarchy c9Net (node B
carries no CD_MemberList) a second _update_memberlist run changes node A's
CD_MemberList.  The first run writes the empty string onto B; the second
run re-reads it as the one-element token set containing the empty string
and merges that empty token into A's list. -/
theorem c9_counterexample :
    mlTokenSet (updateMemberlist 2 (updateMemberlist 2 c9Net {}) {}) 0
      ≠ mlTokenSet (updateMemberlist 2 c9Net {}) 0 := by
  decide

/-- Hierarchy with every node carrying CD_MemberList, instantiating the
amended Claim C9 theorem. -/
def c9WNet : Network :=
  { nodes := [(0, { name := some (pys "A"), memberList := some (pys "g1") }),
              (1, { name := some (pys "B"), memberList := some (pys "g2") })],
    edges := [{ s := 0, t := 1 }] }

theorem c9_update_memberlist_idempotent_witness :
    mlTokenSet (updateMemberlist 2 (updateMemberlist 2 c9WNet {}) {}) 0
      = mlTokenSet (updateMemberlist 2 c9WNet {}) 0 ∧
    memberIdSet (updateMemberlist 2 (updateMemberlist 2 c9WNet {}) {}) 0
      = memberIdSet (updateMemberlist 2 c9WNet {}) 0 ∧
    mlTokenSet (updateMemberlist 2 c9WNet {}) 0 = some (aggTokens c9WNet 2 0) :=
  c9_update_memberlist_idempotent c9WNet {} 2 (by decide) (by decide) 0 (by decide)

/-! ## HiDeF converter (cellmaps_utils/hidefconverter.py) -/

/-- One line of the .nodes file in HiDeFToHierarchyConverter._get_hierarchy
(hidefconverter.py lines 222-235): unpack exactly four tab-separated
fields (ValueError otherwise) and create one hierarchy node, resolving
every whitespace-split gene against the interactome eagerly; the raw
lookup result is appended, so an unresolvable gene stores Python None. -/
def hidefNodeLine (interactome : Network) (h : Network) (line : PyStr) :
    Except PyErr Network :=
  match splitTab (pyStrip line) with
  | [nm, size, genes, persistence] =>
    .ok (addNode h
      { name := some nm, memberListSize := some size, memberList := some genes,
        members := some ((splitWs genes).map (fun g => lookupNodeIdByName interactome g)),
        persistence := some persistence }).1
  | _ => .error .valueError

/-- One line of the .edges file (hidefconverter.py lines 237-243): unpack
exactly three fields; the edge is added only when both endpoint names
resolve to already-created nodes, and silently dropped otherwise. -/
def hidefEdgeLine (h : Network) (line : PyStr) : Except PyErr Network :=
  match splitTab (pyStrip line) with
  | [source, target, _] =>
    match lookupNodeIdByName h source, lookupNodeIdByName h target with
    | some sid, some tid => .ok (addEdge h sid tid).1
    | _, _ => .ok h
  | _ => .error .valueError

/-- HiDeFToHierarchyConverter._get_hierarchy (hidefconverter.py lines
211-248): nodes file, then edges file, then root inference and HCX::isRoot
stamping. -/
def hidefGetHierarchy (interactome : Network) (nodeLines edgeLines : List PyStr) :
    Except PyErr Network :=
  match processLines (hidefNodeLine interactome) {} nodeLines with
  | .error e => .error e
  | .ok h1 =>
    match processLines hidefEdgeLine h1 edgeLines with
    | .error e => .error e
    | .ok h2 => .ok (addIsrootNodeAttribute h2 (getRootNodes h2))

/-- processLines preserves any per-node attribute invariant each line
processor preserves. -/
theorem processLines_preserve {P : NodeAttrs → Prop}
    {f : Network → PyStr → Except PyErr Network}
    (hf : ∀ X l X2, f X l = .ok X2 → (∀ p ∈ X.nodes, P p.2) → ∀ p ∈ X2.nodes, P p.2) :
    ∀ (ls : List PyStr) (X X2 : Network), processLines f X ls = .ok X2 →
      (∀ p ∈ X.nodes, P p.2) → ∀ p ∈ X2.nodes, P p.2 := by
  intro ls
  induction ls with
  | nil =>
    intro X X2 hok hX
    unfold processLines at hok
    cases hok
    exact hX
  | cons l ls ih =>
    intro X X2 hok hX
    unfold processLines at hok
    cases hfl : f X l with
    | error e => rw [hfl] at hok; cases hok
    | ok mid =>
      rw [hfl] at hok
      exact ih mid X2 hok (hf X l mid hfl hX)

/-- The per-node shape every HiDeF-created hierarchy node has: HCX::members
is the raw (unfiltered) interactome lookup of each whitespace-split gene of
its CD_MemberList. -/
def hidefMembersShape (i : Network) (a : NodeAttrs) : Prop :=
  ∃ gstr, a.memberList = some gstr ∧
    a.members = some ((splitWs gstr).map (fun g => lookupNodeIdByName i g))

theorem hidefNodeLine_preserve (i : Network) :
    ∀ X l X2, hidefNodeLine i X l = .ok X2 →
      (∀ p ∈ X.nodes, hidefMembersShape i p.2) →
      ∀ p ∈ X2.nodes, hidefMembersShape i p.2 := by
  intro X l X2 hok hX p hp
  unfold hidefNodeLine at hok
  split at hok
  · cases hok
    rcases List.mem_append.mp hp with hold | hnew
    · exact hX p hold
    · rw [List.mem_singleton] at hnew
      subst hnew
      exact ⟨_, rfl, rfl⟩
  · cases hok

theorem hidefEdgeLine_preserve (i : Network) :
    ∀ X l X2, hidefEdgeLine X l = .ok X2 →
      (∀ p ∈ X.nodes, hidefMembersShape i p.2) →
      ∀ p ∈ X2.nodes, hidefMembersShape i p.2 := by
  intro X l X2 hok hX p hp
  unfold hidefEdgeLine at hok
  split at hok
  · split at hok
    · cases hok
      exact hX p hp
    · cases hok
      exact hX p hp
  · cases hok

/-- Claim C3 (amended): add_hcx_members_annotation stores for every node
exactly the interactome ids obtained by name-lookup of the genes in its
CD_MemberList with every failed lookup silently dropped, so that no null
entry ever appears there; the HiDeF hierarchy producer, by contrast,
stores the raw lookup result of every gene, so an unresolvable gene stores
a null entry (and the DDOT producer does the same, see the counterexample
theorem). -/
theorem c3_members_spec (hier i : Network) :
    (∀ q ∈ hier.nodes,
      (q.1, { q.2 with members := some (((splitSp (q.2.memberList.getD [])).filterMap
          (fun g => lookupNodeIdByName i g)).map (fun x => some x)) })
        ∈ ( addHcxMembersAnnotation hier i).nodes ∧
      ∀ x ∈ ((splitSp (q.2.memberList.getD [])).filterMap
          (fun g => lookupNodeIdByName i g)).map (fun x => some x), x ≠ none) ∧
    (∀ nodeLines edgeLines net, hidefGetHierarchy i nodeLines edgeLines = .ok net →
      ∀ p ∈ net.nodes, hidefMembersShape i p.2) := by
  constructor
  · intro q hq
    constructor
    · exact List.mem_map_of_mem _ hq
    · intro x hx
      rcases List.mem_map.mp hx with ⟨y, _, rfl⟩
      simp
  · intro nl el net hok p hp
    unfold hidefGetHierarchy at hok
    split at hok
    · cases hok
    · rename_i h1 h1ok
      split at hok
      · cases hok
      · rename_i h2 h2ok
        cases hok
        rcases List.mem_map.mp hp with ⟨q, hq, rfl⟩
        have hshape : ∀ r ∈ h2.nodes, hidefMembersShape i r.2 := by
          apply processLines_preserve (hidefEdgeLine_preserve i) el h1 h2 h2ok
          apply processLines_preserve (hidefNodeLine_preserve i) nl {} h1 h1ok
          intro r hr
          cases hr
        obtain ⟨gstr, hml, hm⟩ := hshape q hq
        exact ⟨gstr, hml, hm⟩

/-- Interactome for the Claim C3 theorems: one node named g1. -/
def c3Int : Network :=
  { nodes := [(0, { name := some (pys "g1") })] }

/-- Claim C3 as frozen is false on the DDOT path: converting the ontology
lines A->B, B contains gene gx against an interactome lacking gx stores a
null entry (the raw failed lookup) in B's HCX::members instead of dropping
it. -/
theorem c3_counterexample :
    (ddotGetHierarchy c3Int [pys "A\tB\tdefault", pys "B\tgx\tgene"]).map
        (fun net => (getNode net 1).bind (fun a => a.members)) =
      .ok (some [none]) := by
  rfl

/-- Node attributes and one-node hierarchy instantiating the amended Claim
C3 theorem. -/
def c3Attrs : NodeAttrs :=
  { name := some (pys "A"), memberList := some (pys "g1 gx") }

def c3Hier : Network := { nodes := [(0, c3Attrs)] }

theorem c3_members_spec_witness :
    ((0, { c3Attrs with members := some (((splitSp ((c3Attrs.memberList).getD [])).filterMap
          (fun g => lookupNodeIdByName c3Int g)).map (fun x => some x)) })
      ∈ ( addHcxMembersAnnotation c3Hier c3Int).nodes) ∧
    ∃ net, hidefGetHierarchy c3Int [pys "B\t1\tgx\t0"] [] = .ok net ∧
      ∀ p ∈ net.nodes, hidefMembersShape c3Int p.2 := by
  constructor
  · exact ((c3_members_spec c3Hier c3Int).1 (0, c3Attrs) (List.mem_singleton_self _)).1
  · refine ⟨_, rfl, ?_⟩
    exact (c3_members_spec c3Hier c3Int).2 [pys "B\t1\tgx\t0"] [] _ rfl

/-! ## Round trip (Claim C1): well-formedness and line parsing -/

/-- A well-formed identifier of the DDOT text format: non-empty and free of
whitespace (in particular of tabs and spaces). -/
def cleanStr (s : PyStr) : Prop := s ≠ [] ∧ ∀ c ∈ s, pyIsSpace c = false

instance (s : PyStr) : Decidable (cleanStr s) := by
  unfold cleanStr
  infer_instance

/-- Well-formed hierarchy for the round trip: distinct node ids, every node
named with a distinct clean name, every CD_MemberList token clean, and
edge endpoints existing. -/
def wfHierarchy (h : Network) : Prop :=
  (h.nodes.map (fun p => p.1)).Nodup ∧
  (∀ p ∈ h.nodes, ∃ nm, p.2.name = some nm ∧ cleanStr nm) ∧
  (h.nodes.map (fun p => p.2.name)).Nodup ∧
  (∀ p ∈ h.nodes, ∀ t ∈ splitSp (p.2.memberList.getD []), cleanStr t) ∧
  (∀ e ∈ h.edges, e.s ∈ h.nodes.map (fun p => p.1) ∧ e.t ∈ h.nodes.map (fun p => p.1))

instance (h : Network) : Decidable (wfHierarchy h) := by
  unfold wfHierarchy
  infer_instance

/-- Every node is an endpoint of some structural edge (forced by the
counterexample: an isolated node's gene lines find no node to attach to
and the node is lost). -/
def everyNodeOnEdge (h : Network) : Prop :=
  ∀ p ∈ h.nodes, ∃ e ∈ h.edges, e.s = p.1 ∨ e.t = p.1

instance (h : Network) : Decidable (everyNodeOnEdge h) := by
  unfold everyNodeOnEdge
  infer_instance

/-- CD_MemberList is downward closed along edges: a child's token set is
contained in its parent's (the aggregation invariant of specification
section 3). -/
def downwardClosed (h : Network) : Prop :=
  ∀ e ∈ h.edges, (perNodeTokens h e.t).toFinset ⊆ (perNodeTokens h e.s).toFinset

instance (h : Network) : Decidable (downwardClosed h) := by
  unfold downwardClosed
  infer_instance

/-- Name pairs of the structural edges, the order-insensitive observation
the round trip preserves. -/
def edgeNamePairs (X : Network) : Finset (Option PyStr × Option PyStr) :=
  (X.edges.map (fun e =>
    ((getNode X e.s).bind (fun a => a.name), (getNode X e.t).bind (fun a => a.name)))).toFinset

theorem strHas_gene_default : strHas (pys "gene") (pyLower (pys "default")) = false := by
  decide

theorem strHas_gene_gene : strHas (pys "gene") (pyLower (pys "gene")) = true := by
  decide

theorem joinTab_three (a b c : PyStr) :
    joinTab [a, b, c] = a ++ '\t' :: (b ++ '\t' :: c) := by
  simp [joinTab, List.intercalate]

theorem pyStrip_eq_self {s : PyStr}
    (hh : ∀ x, s.head? = some x → pyIsSpace x = false)
    (hl : ∀ x, s.getLast? = some x → pyIsSpace x = false) : pyStrip s = s := by
  unfold pyStrip
  have h1 : s.dropWhile pyIsSpace = s := by
    cases s with
    | nil => rfl
    | cons c cs =>
      rw [List.dropWhile_cons, if_neg (by rw [hh c rfl]; simp)]
  rw [h1]
  have h2 : s.reverse.dropWhile pyIsSpace = s.reverse := by
    cases hrev : s.reverse with
    | nil => rfl
    | cons c cs =>
      have hlast : s.getLast? = some c := by
        rw [← List.head?_reverse, hrev]
        rfl
      rw [List.dropWhile_cons, if_neg (by rw [hl c hlast]; simp)]
  rw [h2, List.reverse_reverse]

theorem not_tab_mem_of_clean {s : PyStr} (hs : cleanStr s) : '\t' ∉ s := by
  intro hmem
  have := hs.2 '\t' hmem
  simp [pyIsSpace] at this

/-- A generated line of three clean fields strips to itself and tab-splits
back into its fields. -/
theorem splitTab_pyStrip_joinTab {a b c : PyStr}
    (ha : cleanStr a) (hb : cleanStr b) (hc : cleanStr c) :
    splitTab (pyStrip (joinTab [a, b, c])) = [a, b, c] := by
  rw [joinTab_three]
  have hstrip : pyStrip (a ++ '\t' :: (b ++ '\t' :: c)) = a ++ '\t' :: (b ++ '\t' :: c) := by
    apply pyStrip_eq_self
    · intro x hx
      cases hha : a with
      | nil => exact absurd hha ha.1
      | cons a0 arest =>
        rw [hha] at hx
        simp only [List.cons_append, List.head?_cons, Option.some_inj] at hx
        subst hx
        exact ha.2 a0 (by rw [hha]; exact List.mem_cons_self _ _)
    · intro x hx
      have hline : a ++ '\t' :: (b ++ '\t' :: c) = (a ++ '\t' :: b ++ ['\t']) ++ c := by
        simp
      rw [hline, List.getLast?_append] at hx
      cases hcx : c.getLast? with
      | none =>
        rcases c with _ | ⟨c0, crest⟩
        · exact absurd rfl hc.1
        · simp at hcx
      | some y =>
        rw [hcx] at hx
        have h2 : some y = some x := hx
        have hxy : y = x := Option.some_inj.mp h2
        rw [← hxy]
        exact hc.2 y (List.mem_of_mem_getLast? hcx)
  rw [hstrip]
  have hback : a ++ '\t' :: (b ++ '\t' :: c) = joinTab [a, b, c] := (joinTab_three a b c).symm
  rw [hback]
  show List.splitOn '\t' (['\t'].intercalate [a, b, c]) = [a, b, c]
  · exact List.splitOn_intercalate [a, b, c] '\t' (by
      intro l hl
      rcases List.mem_cons.mp hl with rfl | hl2
      · exact not_tab_mem_of_clean ha
      rcases List.mem_cons.mp hl2 with rfl | hl3
      · exact not_tab_mem_of_clean hb
      rcases List.mem_cons.mp hl3 with rfl | hl4
      · exact not_tab_mem_of_clean hc
      · exact absurd hl4 (List.not_mem_nil l)) (by simp)

/-! ## Round trip: lookup and node-creation lemmas -/

theorem lookup_spec {S : Network} {nm : PyStr} {nid : Nat}
    (hS : lookupNodeIdByName S nm = some nid) :
    ∃ a, (nid, a) ∈ S.nodes ∧ a.name = some nm := by
  unfold lookupNodeIdByName at hS
  rcases Option.map_eq_some'.mp hS with ⟨p, hp, rfl⟩
  have hmem := List.mem_of_find?_eq_some hp
  have hpred := List.find?_some hp
  refine ⟨p.2, hmem, by simpa using hpred⟩

theorem getNode_of_mem_nodup {X : Network}
    (hnd : (X.nodes.map (fun p => p.1)).Nodup) {nid : Nat} {a : NodeAttrs}
    (hmem : (nid, a) ∈ X.nodes) : getNode X nid = some a := by
  unfold getNode
  rcases X with ⟨ns, es, nas⟩
  simp only at hmem hnd ⊢
  induction ns with
  | nil => cases hmem
  | cons p l ih =>
    rcases List.mem_cons.mp hmem with rfl | hmem2
    · rw [List.find?_cons_of_pos _ (by simp)]
      rfl
    · by_cases hp : p.1 = nid
      · exfalso
        rw [List.map_cons] at hnd
        have := (List.nodup_cons.mp hnd).1
        exact this (by
          rw [hp]
          exact List.mem_map.mpr ⟨(nid, a), hmem2, rfl⟩)
      · rw [List.find?_cons_of_neg _ (by simpa using hp)]
        exact ih (List.nodup_cons.mp (by rwa [List.map_cons] at hnd)).2 hmem2

theorem name_inj {h : Network} (hwf : wfHierarchy h) {p q : Nat × NodeAttrs}
    (hp : p ∈ h.nodes) (hq : q ∈ h.nodes) (hn : p.2.name = q.2.name) : p = q :=
  List.inj_on_of_nodup_map hwf.2.2.1 hp hq hn

theorem nameOfNode_eq {h : Network} (hids : (h.nodes.map (fun p => p.1)).Nodup)
    {q : Nat × NodeAttrs} (hq : q ∈ h.nodes) :
    nameOfNode h q.1 = nodeDisplayName q.1 q.2 := by
  unfold nameOfNode
  rw [getNode_of_mem_nodup hids hq]

theorem lookup_mono {S : Network} {a : NodeAttrs} {nm : PyStr} {nid : Nat}
    (hS : lookupNodeIdByName S nm = some nid) :
    lookupNodeIdByName (addNode S a).1 nm = some nid := by
  unfold lookupNodeIdByName at hS ⊢
  unfold addNode
  simp only
  rw [List.find?_append]
  rcases Option.map_eq_some'.mp hS with ⟨p, hp, rfl⟩
  rw [hp]
  rfl

theorem lookup_addNode_self {S : Network} {nm : PyStr}
    (hS : lookupNodeIdByName S nm = none) :
    lookupNodeIdByName (addNode S { name := some nm }).1 nm = some S.nodes.length := by
  unfold lookupNodeIdByName at hS ⊢
  unfold addNode
  simp only
  rw [List.find?_append]
  have hfind : S.nodes.find? (fun p => p.2.name = some nm) = none := by
    cases hf : S.nodes.find? (fun p => p.2.name = some nm) with
    | none => rfl
    | some p => rw [hf] at hS; cases hS
  rw [hfind]
  rw [show Option.or none ([(S.nodes.length, ({ name := some nm } : NodeAttrs))].find?
    (fun p => p.2.name = some nm)) = [(S.nodes.length, ({ name := some nm } : NodeAttrs))].find?
    (fun p => p.2.name = some nm) from rfl]
  rw [List.find?_cons_of_pos _ (by simp)]
  rfl

theorem lookup_addNode_other {S : Network} {nm nm2 : PyStr} (hne : nm ≠ nm2) :
    lookupNodeIdByName (addNode S { name := some nm2 }).1 nm = lookupNodeIdByName S nm := by
  unfold lookupNodeIdByName addNode
  simp only
  rw [List.find?_append]
  rw [List.find?_cons_of_neg _ (by simpa using fun hc => hne (by rw [hc]))]
  rw [show ([] : List (Nat × NodeAttrs)).find? (fun p => p.2.name = some nm) = none from rfl]
  cases hf : S.nodes.find? (fun p => p.2.name = some nm) <;> rfl

theorem resolveOrCreate_some {X : Network} {nm : PyStr} {nid : Nat}
    (hl : lookupNodeIdByName X nm = some nid) :
    resolveOrCreateNode X nm = (X, nid) := by
  unfold resolveOrCreateNode
  rw [hl]

theorem resolveOrCreate_none {X : Network} {nm : PyStr}
    (hl : lookupNodeIdByName X nm = none) :
    resolveOrCreateNode X nm = addNode X { name := some nm } := by
  unfold resolveOrCreateNode
  rw [hl]

/-- A structural line takes the non-gene branch: resolve or create both
names, then add the edge. -/
theorem ddotHierarchyLine_struct (i X : Network) {a b : PyStr}
    (ha : cleanStr a) (hb : cleanStr b) :
    ddotHierarchyLine i X (joinTab [a, b, pys "default"]) =
      .ok (addEdge (resolveOrCreateNode (resolveOrCreateNode X a).1 b).1
        (resolveOrCreateNode X a).2
        (resolveOrCreateNode (resolveOrCreateNode X a).1 b).2).1 := by
  unfold ddotHierarchyLine
  rw [splitTab_pyStrip_joinTab ha hb (by decide)]
  dsimp only
  rw [show strHas (pys "gene") (pyLower (pys "default")) = false from by decide]
  rfl

/-- A gene line whose source name does not resolve is silently skipped. -/
theorem ddotHierarchyLine_gene_skip (i X : Network) {a g : PyStr}
    (ha : cleanStr a) (hg : cleanStr g)
    (hl : lookupNodeIdByName X a = none) :
    ddotHierarchyLine i X (joinTab [a, g, pys "gene"]) = .ok X := by
  unfold ddotHierarchyLine
  rw [splitTab_pyStrip_joinTab ha hg (by decide)]
  dsimp only
  rw [show strHas (pys "gene") (pyLower (pys "gene")) = true from by decide]
  rw [hl]
  rfl

/-- A gene line for a node without CD_MemberList starts the list. -/
theorem ddotHierarchyLine_gene_first (i X : Network) {a g : PyStr} {sid : Nat}
    {attrs : NodeAttrs} (ha : cleanStr a) (hg : cleanStr g)
    (hl : lookupNodeIdByName X a = some sid) (hget : getNode X sid = some attrs)
    (hml : attrs.memberList = none) :
    ddotHierarchyLine i X (joinTab [a, g, pys "gene"]) =
      .ok (updateNode X sid (fun c =>
        { c with memberList := some g,
                 members := some [lookupNodeIdByName i g] })) := by
  unfold ddotHierarchyLine
  rw [splitTab_pyStrip_joinTab ha hg (by decide)]
  dsimp only
  rw [show strHas (pys "gene") (pyLower (pys "gene")) = true from by decide]
  rw [hl]
  dsimp only
  rw [hget]
  dsimp only
  rw [hml]
  rfl

/-- A gene line for a node with CD_MemberList appends to it. -/
theorem ddotHierarchyLine_gene_append (i X : Network) {a g ml : PyStr} {sid : Nat}
    {attrs : NodeAttrs} (ha : cleanStr a) (hg : cleanStr g)
    (hl : lookupNodeIdByName X a = some sid) (hget : getNode X sid = some attrs)
    (hml : attrs.memberList = some ml) :
    ddotHierarchyLine i X (joinTab [a, g, pys "gene"]) =
      .ok (updateNode X sid (fun c =>
        { c with memberList := some (ml ++ ' ' :: g),
                 members := some ((attrs.members.getD []) ++ [lookupNodeIdByName i g]) })) := by
  unfold ddotHierarchyLine
  rw [splitTab_pyStrip_joinTab ha hg (by decide)]
  dsimp only
  rw [show strHas (pys "gene") (pyLower (pys "gene")) = true from by decide]
  rw [hl]
  dsimp only
  rw [hget]
  dsimp only
  rw [hml]
  rfl

/-! ## Round trip: the structural pass -/

/-- Loop invariant of the structural pass of _get_hierarchy on generated
input, after consuming the lines of the edge prefix E: consecutive ids,
one anonymous node per distinct endpoint name seen so far (name lookup
succeeding exactly for endpoint names of E), and edges corresponding to E
by endpoint-name lookup, in both directions. -/
def phase1Inv (h : Network) (E : List EdgeRec) (S : Network) : Prop :=
  (S.nodes.map (fun p => p.1) = List.range S.nodes.length) ∧
  (S.nodes.map (fun p => p.2.name)).Nodup ∧
  (∀ p ∈ S.nodes, p.2.memberList = none ∧ ∃ q ∈ h.nodes, p.2.name = q.2.name) ∧
  (∀ q ∈ h.nodes, ((∃ e ∈ E, e.s = q.1 ∨ e.t = q.1) ↔
      ∃ nid, lookupNodeIdByName S (nodeDisplayName q.1 q.2) = some nid)) ∧
  (∀ e2 ∈ S.edges, ∃ e ∈ E, e ∈ h.edges ∧
      lookupNodeIdByName S (nameOfNode h e.s) = some e2.s ∧
      lookupNodeIdByName S (nameOfNode h e.t) = some e2.t) ∧
  (∀ e ∈ E, ∃ e2 ∈ S.edges,
      lookupNodeIdByName S (nameOfNode h e.s) = some e2.s ∧
      lookupNodeIdByName S (nameOfNode h e.t) = some e2.t)

theorem lookup_name_present {S : Network} {p : Nat × NodeAttrs}
    (hp : p ∈ S.nodes) {nm : PyStr} (hnm : p.2.name = some nm) :
    ∃ k, lookupNodeIdByName S nm = some k := by
  unfold lookupNodeIdByName
  have hsome : (S.nodes.find? (fun r => r.2.name = some nm)).isSome = true := by
    rw [List.find?_isSome]
    exact ⟨p, hp, by simp [hnm]⟩
  rcases Option.isSome_iff_exists.mp hsome with ⟨r, hr⟩
  exact ⟨r.1, by rw [hr]; rfl⟩

theorem lookup_addNode_rev {S : Network} {nm nm2 : PyStr} {k : Nat}
    (hl : lookupNodeIdByName (addNode S { name := some nm }).1 nm2 = some k) :
    lookupNodeIdByName S nm2 = some k ∨ nm2 = nm := by
  by_cases hne : nm2 = nm
  · exact Or.inr hne
  · rw [lookup_addNode_other hne] at hl
    exact Or.inl hl

/-- Effect of one resolve-or-create with the (present) name of a hierarchy
node: the node-level invariants survive, the name now resolves, old
lookups survive, new lookups are old ones or the resolved name, and edges
are untouched. -/
theorem roc_spec {h S : Network} {q : Nat × NodeAttrs} {nm : PyStr}
    (hq : q ∈ h.nodes) (hname : q.2.name = some nm)
    (h1 : S.nodes.map (fun p => p.1) = List.range S.nodes.length)
    (h2 : (S.nodes.map (fun p => p.2.name)).Nodup)
    (h3 : ∀ p ∈ S.nodes, p.2.memberList = none ∧ ∃ r ∈ h.nodes, p.2.name = r.2.name) :
    (resolveOrCreateNode S nm).1.nodes.map (fun p => p.1) =
        List.range (resolveOrCreateNode S nm).1.nodes.length ∧
    ((resolveOrCreateNode S nm).1.nodes.map (fun p => p.2.name)).Nodup ∧
    (∀ p ∈ (resolveOrCreateNode S nm).1.nodes,
        p.2.memberList = none ∧ ∃ r ∈ h.nodes, p.2.name = r.2.name) ∧
    lookupNodeIdByName (resolveOrCreateNode S nm).1 nm = some (resolveOrCreateNode S nm).2 ∧
    (∀ nm2 k, lookupNodeIdByName S nm2 = some k →
        lookupNodeIdByName (resolveOrCreateNode S nm).1 nm2 = some k) ∧
    (∀ nm2 k, lookupNodeIdByName (resolveOrCreateNode S nm).1 nm2 = some k →
        lookupNodeIdByName S nm2 = some k ∨ nm2 = nm) ∧
    (resolveOrCreateNode S nm).1.edges = S.edges := by
  cases hlk : lookupNodeIdByName S nm with
  | some nid =>
    rw [resolveOrCreate_some hlk]
    exact ⟨h1, h2, h3, hlk, fun nm2 k hk => hk, fun nm2 k hk => Or.inl hk, rfl⟩
  | none =>
    rw [resolveOrCreate_none hlk]
    refine ⟨?_, ?_, ?_, lookup_addNode_self hlk, ?_, ?_, rfl⟩
    · unfold addNode
      simp only [List.map_append, List.length_append]
      rw [h1]
      simp [List.range_succ]
    · unfold addNode
      simp only [List.map_append]
      rw [List.nodup_append]
      refine ⟨h2, by simp, ?_⟩
      intro x hx hx2
      simp only [List.map_cons, List.map_nil, List.mem_singleton] at hx2
      subst hx2
      rcases List.mem_map.mp hx with ⟨p, hp, hpn⟩
      rcases lookup_name_present hp (by
        show p.2.name = some nm
        exact hpn) with ⟨k, hk⟩
      rw [hk] at hlk
      cases hlk
    · intro p hp
      unfold addNode at hp
      simp only at hp
      rcases List.mem_append.mp hp with hold | hnew
      · exact h3 p hold
      · rw [List.mem_singleton] at hnew
        subst hnew
        exact ⟨rfl, q, hq, hname.symm⟩
    · intro nm2 k hk
      exact lookup_mono hk
    · intro nm2 k hk
      exact lookup_addNode_rev hk

theorem lookup_addEdge (X : Network) (s t : Nat) (nm : PyStr) :
    lookupNodeIdByName (addEdge X s t).1 nm = lookupNodeIdByName X nm := rfl

theorem id_inj {h : Network} (hids : (h.nodes.map (fun p => p.1)).Nodup)
    {p q : Nat × NodeAttrs} (hp : p ∈ h.nodes) (hq : q ∈ h.nodes)
    (hpq : p.1 = q.1) : p = q :=
  List.inj_on_of_nodup_map hids hp hq hpq

/-- Consuming one structural line extends the phase-1 invariant by that
edge. -/
theorem phase1_step {h : Network} (hwf : wfHierarchy h) (i : Network)
    {E : List EdgeRec} {S : Network} (hinv : phase1Inv h E S)
    {e : EdgeRec} (he : e ∈ h.edges) :
    ∃ S2, ddotHierarchyLine i S
        (joinTab [nameOfNode h e.s, nameOfNode h e.t, pys "default"]) = Except.ok S2 ∧
      phase1Inv h (E ++ [e]) S2 := by
  obtain ⟨hids, hnames, hshape, hlk, hSE, hES⟩ := hinv
  obtain ⟨hsmem, htmem⟩ := hwf.2.2.2.2 e he
  rcases List.mem_map.mp hsmem with ⟨qs, hqs, hqs1⟩
  rcases List.mem_map.mp htmem with ⟨qt, hqt, hqt1⟩
  obtain ⟨nms, hnms, hnmsclean⟩ := hwf.2.1 qs hqs
  obtain ⟨nmt, hnmt, hnmtclean⟩ := hwf.2.1 qt hqt
  have hnamS : nameOfNode h e.s = nms := by
    rw [← hqs1, nameOfNode_eq hwf.1 hqs]
    unfold nodeDisplayName
    rw [hnms]
    rfl
  have hnamT : nameOfNode h e.t = nmt := by
    rw [← hqt1, nameOfNode_eq hwf.1 hqt]
    unfold nodeDisplayName
    rw [hnmt]
    rfl
  obtain ⟨r1a, r1b, r1c, r1lk, r1mono, r1rev, r1e⟩ := roc_spec hqs hnms hids hnames hshape
  obtain ⟨r2a, r2b, r2c, r2lk, r2mono, r2rev, r2e⟩ :=
    roc_spec (S := (resolveOrCreateNode S nms).1) hqt hnmt r1a r1b r1c
  refine ⟨_, by rw [hnamS, hnamT]; exact ddotHierarchyLine_struct i S hnmsclean hnmtclean, ?_⟩
  set S1 := (resolveOrCreateNode S nms).1 with hS1def
  set sid := (resolveOrCreateNode S nms).2 with hsiddef
  set St := (resolveOrCreateNode S1 nmt).1 with hStdef
  set tid := (resolveOrCreateNode S1 nmt).2 with htiddef
  have hS2nodes : (addEdge St sid tid).1.nodes = St.nodes := rfl
  have hS2edges : (addEdge St sid tid).1.edges = St.edges ++ [{ s := sid, t := tid }] := rfl
  have hS2lk : ∀ nm2, lookupNodeIdByName (addEdge St sid tid).1 nm2 =
      lookupNodeIdByName St nm2 := fun nm2 => rfl
  have hmono2 : ∀ nm2 k, lookupNodeIdByName S nm2 = some k →
      lookupNodeIdByName St nm2 = some k := fun nm2 k hk => r2mono nm2 k (r1mono nm2 k hk)
  refine ⟨?_, ?_, ?_, ?_, ?_, ?_⟩
  · exact r2a
  · exact r2b
  · exact r2c
  · intro q hq
    obtain ⟨nmq, hnmq, _⟩ := hwf.2.1 q hq
    have hdq : nodeDisplayName q.1 q.2 = nmq := by
      unfold nodeDisplayName
      rw [hnmq]
      rfl
    rw [hdq]
    constructor
    · rintro ⟨e2, he2, hend⟩
      rcases List.mem_append.mp he2 with he2E | he2e
      · obtain ⟨nid, hnid⟩ := (hlk q hq).mp ⟨e2, he2E, hend⟩
        rw [hdq] at hnid
        exact ⟨nid, by rw [hS2lk]; exact hmono2 nmq nid hnid⟩
      · rw [List.mem_singleton] at he2e
        subst he2e
        rcases hend with hqs2 | hqt2
        · have hqeq : q = qs := id_inj hwf.1 hq hqs (by rw [← hqs2, hqs1])
          have hnmeq : nmq = nms := by
            have := hnmq
            rw [hqeq, hnms] at this
            exact (Option.some_inj.mp this).symm
          exact ⟨sid, by rw [hS2lk, hnmeq]; exact r2mono nms sid r1lk⟩
        · have hqeq : q = qt := id_inj hwf.1 hq hqt (by rw [← hqt2, hqt1])
          have hnmeq : nmq = nmt := by
            have := hnmq
            rw [hqeq, hnmt] at this
            exact (Option.some_inj.mp this).symm
          exact ⟨tid, by rw [hS2lk, hnmeq]; exact r2lk⟩
    · rintro ⟨nid, hnid⟩
      rw [hS2lk] at hnid
      rcases r2rev nmq nid hnid with hS1l | heq
      · rcases r1rev nmq nid hS1l with hSl | heq2
        · obtain ⟨e2, he2, hend⟩ := (hlk q hq).mpr ⟨nid, by rw [hdq]; exact hSl⟩
          exact ⟨e2, List.mem_append_left _ he2, hend⟩
        · have hqeq : q = qs := name_inj hwf hq hqs (by rw [hnmq, hnms, heq2])
          refine ⟨e, List.mem_append_right _ (List.mem_singleton_self e), Or.inl ?_⟩
          rw [hqeq]
          exact hqs1.symm
      · have hqeq : q = qt := name_inj hwf hq hqt (by rw [hnmq, hnmt, heq])
        refine ⟨e, List.mem_append_right _ (List.mem_singleton_self e), Or.inr ?_⟩
        rw [hqeq]
        exact hqt1.symm
  · intro e2 he2
    rw [hS2edges] at he2
    rcases List.mem_append.mp he2 with hold | hnew
    · rw [r2e, r1e] at hold
      obtain ⟨e3, he3, he3h, hl1, hl2⟩ := hSE e2 hold
      exact ⟨e3, List.mem_append_left _ he3, he3h,
        by rw [hS2lk]; exact hmono2 _ _ hl1,
        by rw [hS2lk]; exact hmono2 _ _ hl2⟩
    · rw [List.mem_singleton] at hnew
      subst hnew
      refine ⟨e, List.mem_append_right _ (List.mem_singleton_self e), he, ?_, ?_⟩
      · rw [hS2lk, hnamS]
        exact r2mono nms sid r1lk
      · rw [hS2lk, hnamT]
        exact r2lk
  · intro e3 he3
    rcases List.mem_append.mp he3 with holdE | hnewE
    · obtain ⟨e2, he2, hl1, hl2⟩ := hES e3 holdE
      refine ⟨e2, ?_, ?_, ?_⟩
      · rw [hS2edges]
        refine List.mem_append_left _ ?_
        rw [r2e, r1e]
        exact he2
      · rw [hS2lk]
        exact hmono2 _ _ hl1
      · rw [hS2lk]
        exact hmono2 _ _ hl2
    · rw [List.mem_singleton] at hnewE
      subst hnewE
      refine ⟨{ s := sid, t := tid }, ?_, ?_, ?_⟩
      · rw [hS2edges]
        exact List.mem_append_right _ (List.mem_singleton_self _)
      · rw [hS2lk, hnamS]
        exact r2mono nms sid r1lk
      · rw [hS2lk, hnamT]
        exact r2lk

theorem processLines_append (f : Network → PyStr → Except PyErr Network)
    (X : Network) (l1 l2 : List PyStr) :
    processLines f X (l1 ++ l2) =
      match processLines f X l1 with
      | .error e => .error e
      | .ok m => processLines f m l2 := by
  induction l1 generalizing X with
  | nil => rfl
  | cons a l ih =>
    rw [List.cons_append]
    show (match f X a with
          | Except.error e => Except.error e
          | Except.ok m => processLines f m (l ++ l2)) =
      match (match f X a with
             | Except.error e => Except.error e
             | Except.ok m => processLines f m l) with
      | Except.error e => Except.error e
      | Except.ok m => processLines f m l2
    cases f X a with
    | error e => rfl
    | ok m => exact ih m

/-- The initial state satisfies the phase-1 invariant for the empty edge
prefix. -/
theorem phase1Inv_init (h : Network) : phase1Inv h [] {} := by
  refine ⟨rfl, List.nodup_nil, ?_, ?_, ?_, ?_⟩
  · intro p hp
    cases hp
  · intro q _
    constructor
    · rintro ⟨e, he, _⟩
      cases he
    · rintro ⟨nid, hnid⟩
      unfold lookupNodeIdByName at hnid
      cases hnid
  · intro e2 he2
    cases he2
  · intro e he
    cases he

/-- The whole structural pass establishes the invariant for all edges. -/
theorem phase1_fold {h : Network} (hwf : wfHierarchy h) (i : Network) :
    ∀ (E2 : List EdgeRec), (∀ e ∈ E2, e ∈ h.edges) →
      ∀ (E : List EdgeRec) (S : Network), phase1Inv h E S →
      ∃ S2, processLines (ddotHierarchyLine i) S
          (E2.map (fun e => joinTab [nameOfNode h e.s, nameOfNode h e.t, pys "default"]))
            = .ok S2 ∧
        phase1Inv h (E ++ E2) S2 := by
  intro E2
  induction E2 with
  | nil =>
    intro _ E S hinv
    exact ⟨S, rfl, by rw [List.append_nil]; exact hinv⟩
  | cons e E2 ih =>
    intro hmem E S hinv
    obtain ⟨S1, hok1, hinv1⟩ := phase1_step hwf i hinv (hmem e (List.mem_cons_self e E2))
    obtain ⟨S2, hok2, hinv2⟩ :=
      ih (fun x hx => hmem x (List.mem_cons_of_mem e hx)) (E ++ [e]) S1 hinv1
    refine ⟨S2, ?_, by rwa [List.append_assoc, List.singleton_append] at hinv2⟩
    rw [List.map_cons]
    unfold processLines
    rw [hok1]
    exact hok2

/-! ## Round trip: the gene pass -/

theorem lookup_updateNode {X : Network} {nid : Nat} {f : NodeAttrs → NodeAttrs}
    (hf : ∀ a, (f a).name = a.name) (nm : PyStr) :
    lookupNodeIdByName (updateNode X nid f) nm = lookupNodeIdByName X nm := by
  unfold lookupNodeIdByName updateNode
  simp only
  induction X.nodes with
  | nil => rfl
  | cons p l ihl =>
    rw [List.map_cons]
    have hname : (if p.1 = nid then (p.1, f p.2) else p).2.name = p.2.name := by
      by_cases hp : p.1 = nid
      · rw [if_pos hp]
        exact hf p.2
      · rw [if_neg hp]
    have hfst : (if p.1 = nid then (p.1, f p.2) else p).1 = p.1 := by
      by_cases hp : p.1 = nid
      · rw [if_pos hp]
      · rw [if_neg hp]
    by_cases hpn : p.2.name = some nm
    · rw [List.find?_cons_of_pos _ (by simp [hname, hpn]),
        List.find?_cons_of_pos _ (by simp [hpn])]
      simp [hfst]
    · rw [List.find?_cons_of_neg _ (by simp [hname, hpn]),
        List.find?_cons_of_neg _ (by simp [hpn])]
      exact ihl

theorem updateNode_names {X : Network} {nid : Nat} {f : NodeAttrs → NodeAttrs}
    (hf : ∀ a, (f a).name = a.name) :
    (updateNode X nid f).nodes.map (fun p => p.2.name) =
      X.nodes.map (fun p => p.2.name) := by
  unfold updateNode
  rw [List.map_map]
  refine List.map_congr_left (fun p _ => ?_)
  show (if p.1 = nid then (p.1, f p.2) else p).2.name = p.2.name
  by_cases hp : p.1 = nid
  · rw [if_pos hp]
    exact hf p.2
  · rw [if_neg hp]

theorem joinSp_cons {x : PyStr} {L : List PyStr} (hL : L ≠ []) :
    joinSp (x :: L) = x ++ ' ' :: joinSp L := by
  rcases L with _ | ⟨y, zs⟩
  · exact absurd rfl hL
  · unfold joinSp List.intercalate
    rw [List.intersperse_cons_cons]
    simp

theorem joinSp_single (x : PyStr) : joinSp [x] = x := by
  unfold joinSp List.intercalate
  simp

theorem joinSp_append_one (acc : List PyStr) (hne : acc ≠ []) (g : PyStr) :
    joinSp (acc ++ [g]) = joinSp acc ++ ' ' :: g := by
  induction acc with
  | nil => exact absurd rfl hne
  | cons a rest ih =>
    rcases rest with _ | ⟨b, rs⟩
    · rw [List.singleton_append, joinSp_cons (by simp), joinSp_single, joinSp_single]
    · rw [List.cons_append, joinSp_cons (by simp), joinSp_cons (by simp),
        ih (by simp), List.append_assoc]
      rfl

theorem lookup_inj {X : Network} (hids : (X.nodes.map (fun p => p.1)).Nodup)
    {nm1 nm2 : PyStr} {n1 n2 : Nat}
    (h1 : lookupNodeIdByName X nm1 = some n1)
    (h2 : lookupNodeIdByName X nm2 = some n2)
    (hne : nm1 ≠ nm2) : n1 ≠ n2 := by
  obtain ⟨a1, ha1, ha1n⟩ := lookup_spec h1
  obtain ⟨a2, ha2, ha2n⟩ := lookup_spec h2
  intro hcon
  subst hcon
  have hpq := id_inj hids ha1 ha2 rfl
  have haa : a1 = a2 := congrArg Prod.snd hpq
  rw [haa] at ha1n
  rw [ha1n] at ha2n
  exact hne (Option.some_inj.mp ha2n.symm).symm

/-- Consuming the remaining gene lines of one node, given a non-empty
accumulated CD_MemberList. -/
theorem phase2_group_rest {i : Network} {nmq : PyStr} {nid : Nat}
    (hcleannm : cleanStr nmq) :
    ∀ (ts : List PyStr) (X : Network) (acc : List PyStr) (a : NodeAttrs),
      (∀ t ∈ ts, cleanStr t) → acc ≠ [] →
      lookupNodeIdByName X nmq = some nid →
      getNode X nid = some a → a.memberList = some (joinSp acc) →
      ∃ X2, processLines (ddotHierarchyLine i) X
          (ts.map (fun g => joinTab [nmq, g, pys "gene"])) = .ok X2 ∧
        X2.edges = X.edges ∧
        (∀ nm2, lookupNodeIdByName X2 nm2 = lookupNodeIdByName X nm2) ∧
        X2.nodes.map (fun p => p.1) = X.nodes.map (fun p => p.1) ∧
        X2.nodes.map (fun p => p.2.name) = X.nodes.map (fun p => p.2.name) ∧
        (∀ n, n ≠ nid → getNode X2 n = getNode X n) ∧
        (∃ a2, getNode X2 nid = some a2 ∧
          a2.memberList = some (joinSp (acc ++ ts)) ∧ a2.name = a.name) := by
  intro ts
  induction ts with
  | nil =>
    intro X acc a _ hacc hlk hget hml
    exact ⟨X, rfl, rfl, fun _ => rfl, rfl, rfl, fun _ _ => rfl,
      ⟨a, hget, by rw [List.append_nil]; exact hml, rfl⟩⟩
  | cons g ts ih =>
    intro X acc a hclean hacc hlk hget hml
    have hok1 := ddotHierarchyLine_gene_append i X hcleannm
      (hclean g (List.mem_cons_self g ts)) hlk hget hml
    have hnamepres : ∀ b : NodeAttrs,
        ((fun (c : NodeAttrs) => { c with
            memberList := some (joinSp acc ++ ' ' :: g),
            members := some ((a.members.getD []) ++ [lookupNodeIdByName i g]) }) b).name
          = b.name := fun b => rfl
    set X1 := updateNode X nid (fun (c : NodeAttrs) =>
      { c with memberList := some (joinSp acc ++ ' ' :: g),
               members := some ((a.members.getD []) ++ [lookupNodeIdByName i g]) }) with hX1
    have hget1 : getNode X1 nid = some { a with
        memberList := some (joinSp acc ++ ' ' :: g),
        members := some ((a.members.getD []) ++ [lookupNodeIdByName i g]) } := by
      rw [hX1, getNode_updateNode, if_pos rfl, hget]
      rfl
    have hml1 : ({ a with
        memberList := some (joinSp acc ++ ' ' :: g),
        members := some ((a.members.getD []) ++ [lookupNodeIdByName i g]) }
          : NodeAttrs).memberList = some (joinSp (acc ++ [g])) := by
      show some (joinSp acc ++ ' ' :: g) = some (joinSp (acc ++ [g]))
      rw [joinSp_append_one acc hacc g]
    have hlk1 : lookupNodeIdByName X1 nmq = some nid := by
      rw [hX1, lookup_updateNode hnamepres]
      exact hlk
    obtain ⟨X2, hok2, he2, hl2, hi2, hn2, ho2, a2, hga2, hml2, hnm2⟩ :=
      ih X1 (acc ++ [g]) _ (fun t ht => hclean t (List.mem_cons_of_mem g ht))
        (by simp) hlk1 hget1 hml1
    refine ⟨X2, ?_, ?_, ?_, ?_, ?_, ?_, ?_⟩
    · rw [List.map_cons]
      unfold processLines
      rw [hok1]
      exact hok2
    · rw [he2, hX1, updateNode_edges]
    · intro nm2
      rw [hl2 nm2, hX1, lookup_updateNode hnamepres]
    · rw [hi2, hX1, updateNode_ids]
    · rw [hn2, hX1, updateNode_names hnamepres]
    · intro n hn
      rw [ho2 n hn, hX1, getNode_updateNode, if_neg hn]
    · exact ⟨a2, hga2, by rw [hml2, List.append_assoc, List.singleton_append], hnm2⟩

/-- Consuming all gene lines of one node whose CD_MemberList is not yet
set: the full token list ends up space-joined in CD_MemberList. -/
theorem phase2_group {i X : Network} {nmq : PyStr} {nid : Nat} {a0 : NodeAttrs}
    (hcleannm : cleanStr nmq)
    (hlk : lookupNodeIdByName X nmq = some nid)
    (hget : getNode X nid = some a0) (hml : a0.memberList = none)
    {ts : List PyStr} (hts : ∀ t ∈ ts, cleanStr t) (htsne : ts ≠ []) :
    ∃ X2, processLines (ddotHierarchyLine i) X
        (ts.map (fun g => joinTab [nmq, g, pys "gene"])) = .ok X2 ∧
      X2.edges = X.edges ∧
      (∀ nm2, lookupNodeIdByName X2 nm2 = lookupNodeIdByName X nm2) ∧
      X2.nodes.map (fun p => p.1) = X.nodes.map (fun p => p.1) ∧
      X2.nodes.map (fun p => p.2.name) = X.nodes.map (fun p => p.2.name) ∧
      (∀ n, n ≠ nid → getNode X2 n = getNode X n) ∧
      (∃ a2, getNode X2 nid = some a2 ∧
        a2.memberList = some (joinSp ts) ∧ a2.name = a0.name) := by
  rcases ts with _ | ⟨t, rest⟩
  · exact absurd rfl htsne
  have hok1 := ddotHierarchyLine_gene_first i X hcleannm
    (hts t (List.mem_cons_self t rest)) hlk hget hml
  have hnamepres : ∀ b : NodeAttrs,
      ((fun (c : NodeAttrs) => { c with
          memberList := some t,
          members := some [lookupNodeIdByName i t] }) b).name = b.name := fun b => rfl
  set X1 := updateNode X nid (fun (c : NodeAttrs) =>
    { c with memberList := some t, members := some [lookupNodeIdByName i t] }) with hX1
  have hget1 : getNode X1 nid = some { a0 with
      memberList := some t, members := some [lookupNodeIdByName i t] } := by
    rw [hX1, getNode_updateNode, if_pos rfl, hget]
    rfl
  have hml1 : ({ a0 with
      memberList := some t,
      members := some [lookupNodeIdByName i t] } : NodeAttrs).memberList
        = some (joinSp [t]) := by
    show some t = some (joinSp [t])
    rw [joinSp_single]
  have hlk1 : lookupNodeIdByName X1 nmq = some nid := by
    rw [hX1, lookup_updateNode hnamepres]
    exact hlk
  obtain ⟨X2, hok2, he2, hl2, hi2, hn2, ho2, a2, hga2, hml2, hnm2⟩ :=
    phase2_group_rest hcleannm rest X1 [t] _
      (fun x hx => hts x (List.mem_cons_of_mem t hx)) (by simp) hlk1 hget1 hml1
  refine ⟨X2, ?_, ?_, ?_, ?_, ?_, ?_, ?_⟩
  · rw [List.map_cons]
    unfold processLines
    rw [hok1]
    exact hok2
  · rw [he2, hX1, updateNode_edges]
  · intro nm2
    rw [hl2 nm2, hX1, lookup_updateNode hnamepres]
  · rw [hi2, hX1, updateNode_ids]
  · rw [hn2, hX1, updateNode_names hnamepres]
  · intro n hn
    rw [ho2 n hn, hX1, getNode_updateNode, if_neg hn]
  · exact ⟨a2, hga2, by rw [hml2]; rfl, hnm2⟩

/-- The whole gene pass: every node of the prefix list ends up with its
space-joined token list as CD_MemberList, and nothing else changes. -/
theorem phase2_fold {h : Network} (hwf : wfHierarchy h) (i : Network) :
    ∀ (Q : List (Nat × NodeAttrs)) (X : Network),
      Q.Nodup → (∀ q ∈ Q, q ∈ h.nodes) →
      (X.nodes.map (fun p => p.1)).Nodup →
      (∀ q ∈ Q, ∃ nid, lookupNodeIdByName X (nodeDisplayName q.1 q.2) = some nid ∧
        ∃ a, getNode X nid = some a ∧ a.memberList = none) →
      ∃ X2, processLines (ddotHierarchyLine i) X
          ((Q.map (fun p => (splitSp (p.2.memberList.getD [])).map
            (fun g => joinTab [nodeDisplayName p.1 p.2, g, pys "gene"]))).flatten) = .ok X2 ∧
        X2.edges = X.edges ∧
        (∀ nm2, lookupNodeIdByName X2 nm2 = lookupNodeIdByName X nm2) ∧
        X2.nodes.map (fun p => p.1) = X.nodes.map (fun p => p.1) ∧
        X2.nodes.map (fun p => p.2.name) = X.nodes.map (fun p => p.2.name) ∧
        (∀ q ∈ Q, ∀ nid, lookupNodeIdByName X (nodeDisplayName q.1 q.2) = some nid →
          ∃ a2, getNode X2 nid = some a2 ∧
            a2.memberList = some (joinSp (splitSp (q.2.memberList.getD [])))) ∧
        (∀ n, (∀ q ∈ Q, ∀ nid,
            lookupNodeIdByName X (nodeDisplayName q.1 q.2) = some nid → n ≠ nid) →
          getNode X2 n = getNode X n) := by
  intro Q
  induction Q with
  | nil =>
    intro X _ _ _ _
    refine ⟨X, rfl, rfl, fun _ => rfl, rfl, rfl, ?_, fun _ _ => rfl⟩
    intro q hq
    cases hq
  | cons q Q ihQ =>
    intro X hQnd hQmem hXids hpre
    obtain ⟨nid, hlkq, a, hgeta, hmla⟩ := hpre q (List.mem_cons_self q Q)
    have hqh : q ∈ h.nodes := hQmem q (List.mem_cons_self q Q)
    obtain ⟨nmq, hnmq, hnmqcl⟩ := hwf.2.1 q hqh
    have hdq : nodeDisplayName q.1 q.2 = nmq := by
      unfold nodeDisplayName
      rw [hnmq]
      rfl
    have hts := hwf.2.2.2.1 q hqh
    have htsne := splitSp_ne_nil (q.2.memberList.getD [])
    rw [hdq] at hlkq
    obtain ⟨X1, hok1, he1, hl1, hi1, hn1, ho1, a1, hga1, hml1, hnm1⟩ :=
      phase2_group (i := i) hnmqcl hlkq hgeta hmla hts htsne
    have hdistinct : ∀ q2 ∈ Q, ∀ nid2,
        lookupNodeIdByName X (nodeDisplayName q2.1 q2.2) = some nid2 → nid2 ≠ nid := by
      intro q2 hq2 nid2 hlk2
      have hq2h : q2 ∈ h.nodes := hQmem q2 (List.mem_cons_of_mem q hq2)
      obtain ⟨nm2, hnm2, _⟩ := hwf.2.1 q2 hq2h
      have hd2 : nodeDisplayName q2.1 q2.2 = nm2 := by
        unfold nodeDisplayName
        rw [hnm2]
        rfl
      have hqne : q2 ≠ q := by
        intro hcon
        exact (List.nodup_cons.mp hQnd).1 (hcon ▸ hq2)
      have hnmne : nm2 ≠ nmq := by
        intro hcon
        exact hqne (name_inj hwf hq2h hqh (by rw [hnm2, hnmq, hcon]))
      rw [hd2] at hlk2
      exact lookup_inj hXids hlk2 hlkq hnmne
    have hpre1 : ∀ q2 ∈ Q, ∃ nid2,
        lookupNodeIdByName X1 (nodeDisplayName q2.1 q2.2) = some nid2 ∧
        ∃ a2, getNode X1 nid2 = some a2 ∧ a2.memberList = none := by
      intro q2 hq2
      obtain ⟨nid2, hlk2, a2, hget2, hml2⟩ := hpre q2 (List.mem_cons_of_mem q hq2)
      refine ⟨nid2, by rw [hl1]; exact hlk2, a2, ?_, hml2⟩
      rw [ho1 nid2 (hdistinct q2 hq2 nid2 hlk2), hget2]
    obtain ⟨X2, hok2, he2, hl2, hi2, hn2, hmem2, ho2⟩ :=
      ihQ X1 (List.nodup_cons.mp hQnd).2
        (fun x hx => hQmem x (List.mem_cons_of_mem q hx))
        (by rw [hi1]; exact hXids) hpre1
    refine ⟨X2, ?_, ?_, ?_, ?_, ?_, ?_, ?_⟩
    · rw [List.map_cons, List.flatten_cons, processLines_append]
      rw [hdq, hok1]
      exact hok2
    · rw [he2, he1]
    · intro nm2
      rw [hl2 nm2, hl1 nm2]
    · rw [hi2, hi1]
    · rw [hn2, hn1]
    · intro q2 hq2 nid2 hlk2
      rcases List.mem_cons.mp hq2 with rfl | hq2Q
      · rw [hdq] at hlk2
        have : nid2 = nid := Option.some_inj.mp (hlk2.symm.trans hlkq)
        subst this
        refine ⟨a1, ?_, hml1⟩
        rw [ho2 nid2 ?_]
        · exact hga1
        · intro q3 hq3 nid3 hlk3
          rw [hl1] at hlk3
          exact (hdistinct q3 hq3 nid3 hlk3).symm
      · obtain ⟨a2, hga2, hml2⟩ := hmem2 q2 hq2Q nid2 (by rw [hl1]; exact hlk2)
        exact ⟨a2, hga2, hml2⟩
    · intro n hn
      rw [ho2 n ?_, ho1 n ?_]
      · exact (hn q (List.mem_cons_self q Q) nid (by rw [hdq]; exact hlkq))
      · intro q3 hq3 nid3 hlk3
        rw [hl1] at hlk3
        exact hn q3 (List.mem_cons_of_mem q hq3) nid3 hlk3

/-! ## Round trip: the re-aggregation pass -/

theorem perNodeTokens_of_mlTokenSet_some {X : Network} {n : Nat} {s : Finset PyStr}
    (h : mlTokenSet X n = some s) :
    (perNodeTokens X n).toFinset = s ∧ perNodeTokens X n ≠ [] := by
  unfold mlTokenSet at h
  rcases Option.map_eq_some'.mp h with ⟨ml, hml, hs⟩
  have hpt : perNodeTokens X n = splitSp ml := by
    unfold perNodeTokens
    rw [hml]
  rw [hpt]
  exact ⟨hs, splitSp_ne_nil ml⟩

theorem perNodeTokens_of_mlTokenSet_none {X : Network} {n : Nat}
    (h : mlTokenSet X n = none) : perNodeTokens X n = [] := by
  unfold mlTokenSet at h
  have hb : (getNode X n).bind (fun a => a.memberList) = none := Option.map_eq_none'.mp h
  unfold perNodeTokens
  rw [hb]

theorem tokSet_congr_of_mlTokenSet {X Y : Network} {n : Nat}
    (h : mlTokenSet X n = mlTokenSet Y n) :
    (perNodeTokens X n).toFinset = (perNodeTokens Y n).toFinset := by
  cases hy : mlTokenSet Y n with
  | some s =>
    rw [hy] at h
    rw [(perNodeTokens_of_mlTokenSet_some h).1, (perNodeTokens_of_mlTokenSet_some hy).1]
  | none =>
    rw [hy] at h
    rw [perNodeTokens_of_mlTokenSet_none h, perNodeTokens_of_mlTokenSet_none hy]

theorem space_not_mem_of_clean {t : PyStr} (h : cleanStr t) : ' ' ∉ t := by
  intro hmem
  exact absurd (h.2 ' ' hmem) (by decide)

theorem perNodeTokens_eq_of_some {X : Network} {n : Nat} {a : NodeAttrs} {ml : PyStr}
    (hga : getNode X n = some a) (hml : a.memberList = some ml) :
    perNodeTokens X n = splitSp ml := by
  unfold perNodeTokens
  rw [hga, Option.some_bind, hml]

/-- Under edgewise downward closure of the stored token sets, a DFS
descendant's token set is contained in its ancestor's, at any budget. -/
theorem dc_children {X : Network}
    (hdc : ∀ e ∈ X.edges, (perNodeTokens X e.t).toFinset ⊆ (perNodeTokens X e.s).toFinset) :
    ∀ (F : Nat) {n d : Nat}, d ∈ getChildrenOfNode X.edges F n →
      (perNodeTokens X d).toFinset ⊆ (perNodeTokens X n).toFinset := by
  intro F
  induction F with
  | zero =>
    intro n d hd
    exact absurd hd (Finset.not_mem_empty d)
  | succ f ih =>
    intro n d hd
    rw [mem_children_succ] at hd
    obtain ⟨e, he, hs, hdt⟩ := hd
    have h1 : (perNodeTokens X d).toFinset ⊆ (perNodeTokens X e.t).toFinset := by
      rcases hdt with rfl | hdt
      · exact Finset.Subset.refl _
      · exact ih hdt
    rw [← hs]
    exact h1.trans (hdc e he)

/-- Invariant along _update_memberlist when the base state is already
downward closed: edges, ids, every node's CD_MemberList token set and
every node's name are those of the base state. -/
def p3Ok (B : Network) (X : Network) : Prop :=
  X.edges = B.edges ∧
  X.nodes.map (fun p => p.1) = B.nodes.map (fun p => p.1) ∧
  (∀ n, mlTokenSet X n = mlTokenSet B n) ∧
  (∀ n, (getNode X n).bind (fun a => a.name) = (getNode B n).bind (fun a => a.name))

theorem p3_step {B i : Network} {F : Nat}
    (hdcB : ∀ e ∈ B.edges, (perNodeTokens B e.t).toFinset ⊆ (perNodeTokens B e.s).toFinset)
    {X : Network} (hX : p3Ok B X) {nid : Nat}
    (hlive : (mlTokenSet B nid).isSome = true) :
    p3Ok B (umStep F i X nid) := by
  obtain ⟨hXe, hXids, hXml, hXnm⟩ := hX
  have hdcX : ∀ e ∈ X.edges,
      (perNodeTokens X e.t).toFinset ⊆ (perNodeTokens X e.s).toFinset := by
    intro e he
    rw [tokSet_congr_of_mlTokenSet (hXml e.t), tokSet_congr_of_mlTokenSet (hXml e.s)]
    exact hdcB e (hXe ▸ he)
  obtain ⟨s, hs⟩ := Option.isSome_iff_exists.mp hlive
  have hXs : mlTokenSet X nid = some s := by rw [hXml nid, hs]
  obtain ⟨hXset, hXne⟩ := perNodeTokens_of_mlTokenSet_some hXs
  set genes := (getMemberlistsFromNodes X i (nid :: getChildrenList X.edges F nid)).1
    with hgenes
  have hmemgenes : ∀ x, x ∈ genes ↔
      ∃ d ∈ nid :: getChildrenList X.edges F nid, x ∈ perNodeTokens X d := by
    intro x
    rw [hgenes]
    unfold getMemberlistsFromNodes
    simp only [List.mem_dedup, List.mem_flatten, List.mem_map]
    constructor
    · rintro ⟨l, ⟨d, hd, rfl⟩, hx⟩
      exact ⟨d, hd, hx⟩
    · rintro ⟨d, hd, hx⟩
      exact ⟨perNodeTokens X d, ⟨d, hd, rfl⟩, hx⟩
  have hgset : genes.toFinset = (perNodeTokens X nid).toFinset := by
    ext x
    rw [List.mem_toFinset, hmemgenes x]
    constructor
    · rintro ⟨d, hd, hx⟩
      rcases List.mem_cons.mp hd with rfl | hd2
      · exact List.mem_toFinset.mpr hx
      · exact dc_children hdcX F (mem_getChildrenList.mp hd2) (List.mem_toFinset.mpr hx)
    · intro hx
      exact ⟨nid, List.mem_cons_self _ _, List.mem_toFinset.mp hx⟩
  have hgne : genes ≠ [] := by
    obtain ⟨t, ht⟩ := List.exists_mem_of_ne_nil _ hXne
    exact List.ne_nil_of_mem ((hmemgenes t).mpr ⟨nid, List.mem_cons_self _ _, ht⟩)
  have hgsp : ∀ t ∈ genes, ' ' ∉ t := by
    intro t ht
    obtain ⟨d, _, htd⟩ := (hmemgenes t).mp ht
    exact perNodeTokens_spacefree X d t htd
  refine ⟨?_, ?_, ?_, ?_⟩
  · rw [umStep_eq, updateNode_edges, hXe]
  · rw [umStep_eq, updateNode_ids, hXids]
  · intro n
    by_cases hn : n = nid
    · cases hg0 : getNode X nid with
      | none =>
        exfalso
        unfold mlTokenSet at hXs
        rw [hg0] at hXs
        simp at hXs
      | some a0 =>
        have hgn : getNode (umStep F i X nid) nid = some { a0 with
            memberList := some (joinSp genes),
            members := some (getMemberlistsFromNodes X i
              (nid :: getChildrenList X.edges F nid)).2 } := by
          rw [umStep_eq, getNode_updateNode, if_pos rfl, hg0]
          rfl
        have hml2 : mlTokenSet (umStep F i X nid) nid
            = some ((splitSp (joinSp genes)).toFinset) := by
          unfold mlTokenSet
          rw [hgn]
          rfl
        rw [hn, hml2, splitSp_joinSp hgne hgsp, hgset, hXset, hs]
    · have hother : getNode (umStep F i X nid) n = getNode X n := by
        rw [umStep_eq, getNode_updateNode, if_neg hn]
      have h2 : mlTokenSet (umStep F i X nid) n = mlTokenSet X n := by
        unfold mlTokenSet
        rw [hother]
      rw [h2]
      exact hXml n
  · intro n
    have hname : (getNode (umStep F i X nid) n).bind (fun a => a.name)
        = (getNode X n).bind (fun a => a.name) := by
      rw [umStep_eq, getNode_updateNode]
      by_cases hn : n = nid
      · rw [if_pos hn]
        cases hg : getNode X n with
        | none => rfl
        | some a => rfl
      · rw [if_neg hn]
    rw [hname]
    exact hXnm n

theorem p3_fold {B i : Network} {F : Nat}
    (hdcB : ∀ e ∈ B.edges, (perNodeTokens B e.t).toFinset ⊆ (perNodeTokens B e.s).toFinset)
    (hlive : ∀ n ∈ B.nodes.map (fun p => p.1), (mlTokenSet B n).isSome = true) :
    ∀ (l : List Nat), (∀ n ∈ l, n ∈ B.nodes.map (fun p => p.1)) →
      ∀ X, p3Ok B X → p3Ok B (l.foldl (umStep F i) X) := by
  intro l
  induction l with
  | nil =>
    intro _ X hX
    exact hX
  | cons a l ih =>
    intro hl X hX
    rw [List.foldl_cons]
    exact ih (fun n hn => hl n (List.mem_cons_of_mem a hn)) _
      (p3_step hdcB hX (hlive a (hl a (List.mem_cons_self a l))))

/-- On a downward-closed base state whose live nodes all carry a
CD_MemberList, the whole _update_memberlist run changes no node's token
set, name, id, or edge. -/
theorem p3_updateMemberlist {B i : Network} (F : Nat)
    (hdcB : ∀ e ∈ B.edges, (perNodeTokens B e.t).toFinset ⊆ (perNodeTokens B e.s).toFinset)
    (hlive : ∀ n ∈ B.nodes.map (fun p => p.1), (mlTokenSet B n).isSome = true) :
    p3Ok B (updateMemberlist F B i) := by
  unfold updateMemberlist
  exact p3_fold hdcB hlive _ (fun n hn => hn) B ⟨rfl, rfl, fun _ => rfl, fun _ => rfl⟩

/-! ## Round trip: the isRoot stamping pass and preservation lemmas -/

theorem getNode_addIsroot (X : Network) (r : Finset Nat) (n : Nat) :
    getNode (addIsrootNodeAttribute X r) n =
      (getNode X n).map (fun a => { a with isRoot := some (n ∈ r) }) := by
  unfold getNode addIsrootNodeAttribute
  simp only
  induction X.nodes with
  | nil => rfl
  | cons p l ih =>
    rw [List.map_cons]
    by_cases hp : p.1 = n
    · rw [List.find?_cons_of_pos _ (by simpa using hp),
        List.find?_cons_of_pos _ (by simpa using hp), hp]
      rfl
    · rw [List.find?_cons_of_neg _ (by simpa using hp),
        List.find?_cons_of_neg _ (by simpa using hp)]
      exact ih

theorem lookup_addIsroot (X : Network) (r : Finset Nat) (nm : PyStr) :
    lookupNodeIdByName (addIsrootNodeAttribute X r) nm = lookupNodeIdByName X nm := by
  unfold lookupNodeIdByName addIsrootNodeAttribute
  simp only
  induction X.nodes with
  | nil => rfl
  | cons p l ih =>
    rw [List.map_cons]
    by_cases hpn : p.2.name = some nm
    · rw [List.find?_cons_of_pos _ (by simpa using hpn),
        List.find?_cons_of_pos _ (by simpa using hpn)]
      rfl
    · rw [List.find?_cons_of_neg _ (by simpa using hpn),
        List.find?_cons_of_neg _ (by simpa using hpn)]
      exact ih

theorem addIsroot_names (X : Network) (r : Finset Nat) :
    (addIsrootNodeAttribute X r).nodes.map (fun p => p.2.name)
      = X.nodes.map (fun p => p.2.name) := by
  unfold addIsrootNodeAttribute
  rw [List.map_map]
  exact List.map_congr_left (fun p _ => rfl)

theorem lookup_umStep (F : Nat) (i X : Network) (nid : Nat) (nm : PyStr) :
    lookupNodeIdByName (umStep F i X nid) nm = lookupNodeIdByName X nm := by
  rw [umStep_eq]
  apply lookup_updateNode
  intro a
  rfl

theorem lookup_updateMemberlist (F : Nat) (B i : Network) (nm : PyStr) :
    lookupNodeIdByName (updateMemberlist F B i) nm = lookupNodeIdByName B nm := by
  unfold updateMemberlist
  have hfold : ∀ (l : List Nat) (X : Network),
      lookupNodeIdByName (l.foldl (umStep F i) X) nm = lookupNodeIdByName X nm := by
    intro l
    induction l with
    | nil => intro X; rfl
    | cons a l ih =>
      intro X
      rw [List.foldl_cons, ih, lookup_umStep]
  exact hfold _ B

theorem names_updateMemberlist (F : Nat) (B i : Network) :
    (updateMemberlist F B i).nodes.map (fun p => p.2.name)
      = B.nodes.map (fun p => p.2.name) := by
  unfold updateMemberlist
  have hfold : ∀ (l : List Nat) (X : Network),
      (l.foldl (umStep F i) X).nodes.map (fun p => p.2.name)
        = X.nodes.map (fun p => p.2.name) := by
    intro l
    induction l with
    | nil => intro X; rfl
    | cons a l ih =>
      intro X
      rw [List.foldl_cons, ih, umStep_eq]
      apply updateNode_names
      intro b
      rfl
  exact hfold _ B

theorem wf_memberList_some {h : Network} (hwf : wfHierarchy h) {p : Nat × NodeAttrs}
    (hp : p ∈ h.nodes) : ∃ ml, p.2.memberList = some ml := by
  cases hml : p.2.memberList with
  | some ml => exact ⟨ml, rfl⟩
  | none =>
    exfalso
    have hcl := hwf.2.2.2.1 p hp
    rw [hml] at hcl
    have h0 : ([] : PyStr) ∈ splitSp ((none : Option PyStr).getD []) := by decide
    exact (hcl [] h0).1 rfl

theorem lookup_of_mem_name_nodup {X : Network}
    (hnd : (X.nodes.map (fun p => p.2.name)).Nodup) {p : Nat × NodeAttrs}
    (hp : p ∈ X.nodes) {nm : PyStr} (hnm : p.2.name = some nm) :
    lookupNodeIdByName X nm = some p.1 := by
  obtain ⟨k, hk⟩ := lookup_name_present hp hnm
  obtain ⟨a, hka, han⟩ := lookup_spec hk
  have hkp : (k, a) = p := List.inj_on_of_nodup_map hnd hka hp (by rw [han, hnm])
  rw [← hkp]
  exact hk

/-- Claim C1 (amended): the DDOT round trip is faithful on hierarchies that
are well-formed (distinct clean names, clean gene tokens, closed edge
endpoints), have every node on some structural edge, and carry downward-
closed member lists: converting to a DDOT ontology file and parsing back
succeeds and reproduces the structural edges as name pairs, the node name
set, and every node's CD_MemberList gene set.  Without the last two
hypotheses the claim fails: an isolated node is dropped entirely, and a
non-closed member list grows during re-aggregation. -/
theorem c1_round_trip (h i : Network)
    (hwf : wfHierarchy h) (hone : everyNodeOnEdge h) (hdc : downwardClosed h) :
    ∃ net, ddotGetHierarchy i (generateOntologyDdotFile h) = Except.ok net ∧
      edgeNamePairs net = edgeNamePairs h ∧
      (net.nodes.map (fun p => p.2.name)).toFinset
        = (h.nodes.map (fun p => p.2.name)).toFinset ∧
      ∀ q ∈ h.nodes, ∃ nid, lookupNodeIdByName net (nodeDisplayName q.1 q.2) = some nid ∧
        (perNodeTokens net nid).toFinset = (perNodeTokens h q.1).toFinset := by
  obtain ⟨S1, hok1, hinv1⟩ :=
    phase1_fold hwf i h.edges (fun e he => he) [] {} (phase1Inv_init h)
  rw [List.nil_append] at hinv1
  obtain ⟨hS1ids, hS1names, hS1attr, hS1lk, hS1E1, hS1E2⟩ := hinv1
  have hS1idsNodup : (S1.nodes.map (fun p => p.1)).Nodup := by
    rw [hS1ids]
    exact List.nodup_range _
  have hresolve : ∀ q ∈ h.nodes,
      ∃ nid, lookupNodeIdByName S1 (nodeDisplayName q.1 q.2) = some nid := by
    intro q hq
    exact (hS1lk q hq).mp (hone q hq)
  have hQnd : h.nodes.Nodup := List.Nodup.of_map _ hwf.1
  have hpre : ∀ q ∈ h.nodes,
      ∃ nid, lookupNodeIdByName S1 (nodeDisplayName q.1 q.2) = some nid ∧
      ∃ a, getNode S1 nid = some a ∧ a.memberList = none := by
    intro q hq
    obtain ⟨nid, hnid⟩ := hresolve q hq
    obtain ⟨a, hmem, _⟩ := lookup_spec hnid
    exact ⟨nid, hnid, a, getNode_of_mem_nodup hS1idsNodup hmem, (hS1attr (nid, a) hmem).1⟩
  obtain ⟨X2, hok2, hX2e, hX2lk, hX2ids, hX2names, hX2mem, hX2other⟩ :=
    phase2_fold hwf i h.nodes S1 hQnd (fun q hq => hq) hS1idsNodup hpre
  have hparse : processLines (ddotHierarchyLine i) {} (generateOntologyDdotFile h)
      = .ok X2 := by
    unfold generateOntologyDdotFile
    rw [processLines_append, hok1]
    exact hok2
  set F := X2.nodes.length with hF
  set U := updateMemberlist F X2 i with hU
  set net := addIsrootNodeAttribute U (getRootNodes U) with hnet
  have hrun : ddotGetHierarchy i (generateOntologyDdotFile h) = .ok net := by
    unfold ddotGetHierarchy
    rw [hparse]
  have hX2idsNodup : (X2.nodes.map (fun p => p.1)).Nodup := by
    rw [hX2ids]
    exact hS1idsNodup
  have hX2namesNodup : (X2.nodes.map (fun p => p.2.name)).Nodup := by
    rw [hX2names]
    exact hS1names
  have hmlX2 : ∀ q ∈ h.nodes, ∀ nid,
      lookupNodeIdByName S1 (nodeDisplayName q.1 q.2) = some nid →
      mlTokenSet X2 nid = some (splitSp (q.2.memberList.getD [])).toFinset := by
    intro q hq nid hnid
    obtain ⟨a2, hga2, hml2⟩ := hX2mem q hq nid hnid
    have hts := hwf.2.2.2.1 q hq
    unfold mlTokenSet
    rw [hga2, Option.some_bind, hml2]
    show some ((splitSp (joinSp (splitSp (q.2.memberList.getD [])))).toFinset) = _
    rw [splitSp_joinSp (splitSp_ne_nil _)
      (fun t ht => space_not_mem_of_clean (hts t ht))]
  have hlive : ∀ n ∈ X2.nodes.map (fun p => p.1), (mlTokenSet X2 n).isSome = true := by
    intro n hn
    obtain ⟨a, hga⟩ := getNode_isSome_of_mem hn
    have hmemn := getNode_mem hga
    have hnmem : a.name ∈ S1.nodes.map (fun p => p.2.name) := by
      rw [← hX2names]
      exact List.mem_map.mpr ⟨(n, a), hmemn, rfl⟩
    obtain ⟨p1, hp1, hp1n⟩ := List.mem_map.mp hnmem
    obtain ⟨_, q, hq, hqn⟩ := hS1attr p1 hp1
    obtain ⟨nm, hnm, _⟩ := hwf.2.1 q hq
    obtain ⟨nid, hnid⟩ := hresolve q hq
    have hdisp : nodeDisplayName q.1 q.2 = nm := by
      unfold nodeDisplayName
      rw [hnm]
      rfl
    rw [hdisp] at hnid
    have hX2l : lookupNodeIdByName X2 nm = some nid := by
      rw [hX2lk]
      exact hnid
    have hX2l2 : lookupNodeIdByName X2 nm = some n :=
      lookup_of_mem_name_nodup hX2namesNodup hmemn
        (show a.name = some nm by rw [← hp1n, hqn, hnm])
    have hnidn : nid = n := Option.some_inj.mp (hX2l.symm.trans hX2l2)
    rw [← hnidn, hmlX2 q hq nid (by rw [hdisp]; exact hnid)]
    rfl
  have hdcX2 : ∀ e2 ∈ X2.edges,
      (perNodeTokens X2 e2.t).toFinset ⊆ (perNodeTokens X2 e2.s).toFinset := by
    intro e2 he2
    rw [hX2e] at he2
    obtain ⟨e, _, heh, hlks, hlkt⟩ := hS1E1 e2 he2
    obtain ⟨hsmem, htmem⟩ := hwf.2.2.2.2 e heh
    obtain ⟨aS, hgas⟩ := getNode_isSome_of_mem hsmem
    obtain ⟨aT, hgat⟩ := getNode_isSome_of_mem htmem
    have hqs : (e.s, aS) ∈ h.nodes := getNode_mem hgas
    have hqt : (e.t, aT) ∈ h.nodes := getNode_mem hgat
    have hns : nameOfNode h e.s = nodeDisplayName e.s aS := by
      unfold nameOfNode
      rw [hgas]
    have hnt : nameOfNode h e.t = nodeDisplayName e.t aT := by
      unfold nameOfNode
      rw [hgat]
    rw [hns] at hlks
    rw [hnt] at hlkt
    have hmls := hmlX2 (e.s, aS) hqs e2.s hlks
    have hmlt := hmlX2 (e.t, aT) hqt e2.t hlkt
    rw [(perNodeTokens_of_mlTokenSet_some hmls).1,
      (perNodeTokens_of_mlTokenSet_some hmlt).1]
    have hdce := hdc e heh
    obtain ⟨mls, hmls'⟩ := wf_memberList_some hwf hqs
    obtain ⟨mlt, hmlt'⟩ := wf_memberList_some hwf hqt
    rw [perNodeTokens_eq_of_some hgas hmls',
      perNodeTokens_eq_of_some hgat hmlt'] at hdce
    rw [show ((e.s, aS) : Nat × NodeAttrs).2.memberList = aS.memberList from rfl,
      show ((e.t, aT) : Nat × NodeAttrs).2.memberList = aT.memberList from rfl,
      hmls', hmlt']
    exact hdce
  obtain ⟨hUe, hUids, hUml, hUnm⟩ : p3Ok X2 U := by
    rw [hU]
    exact p3_updateMemberlist F hdcX2 hlive
  have hnetml : ∀ n, mlTokenSet net n = mlTokenSet U n := by
    intro n
    unfold mlTokenSet
    rw [hnet, getNode_addIsroot]
    cases hg : getNode U n with
    | none => rfl
    | some a => rfl
  have hnmnet : ∀ n, (getNode net n).bind (fun a => a.name)
      = (getNode X2 n).bind (fun a => a.name) := by
    intro n
    rw [show (getNode net n).bind (fun a => a.name)
        = (getNode U n).bind (fun a => a.name) from by
      rw [hnet, getNode_addIsroot]
      cases hg : getNode U n with
      | none => rfl
      | some a => rfl]
    exact hUnm n
  have hEnet : net.edges = S1.edges := by
    rw [hnet]
    show U.edges = S1.edges
    rw [hUe, hX2e]
  have hnetlk : ∀ nm, lookupNodeIdByName net nm = lookupNodeIdByName X2 nm := by
    intro nm
    rw [hnet, lookup_addIsroot, hU, lookup_updateMemberlist]
  have hnameAtX2 : ∀ (k : Nat) (nm : PyStr), lookupNodeIdByName X2 nm = some k →
      (getNode X2 k).bind (fun a => a.name) = some nm := by
    intro k nm hk
    obtain ⟨a, hka, han⟩ := lookup_spec hk
    rw [getNode_of_mem_nodup hX2idsNodup hka, Option.some_bind, han]
  have hnameAth : ∀ e ∈ h.edges,
      (getNode h e.s).bind (fun a => a.name) = some (nameOfNode h e.s) ∧
      (getNode h e.t).bind (fun a => a.name) = some (nameOfNode h e.t) := by
    intro e he
    obtain ⟨hsmem, htmem⟩ := hwf.2.2.2.2 e he
    obtain ⟨aS, hgas⟩ := getNode_isSome_of_mem hsmem
    obtain ⟨aT, hgat⟩ := getNode_isSome_of_mem htmem
    obtain ⟨nms, hnms, _⟩ := hwf.2.1 (e.s, aS) (getNode_mem hgas)
    obtain ⟨nmt, hnmt, _⟩ := hwf.2.1 (e.t, aT) (getNode_mem hgat)
    constructor
    · rw [hgas, Option.some_bind]
      unfold nameOfNode
      rw [hgas]
      dsimp only
      unfold nodeDisplayName
      have hnms2 : aS.name = some nms := hnms
      rw [hnms2]
      rfl
    · rw [hgat, Option.some_bind]
      unfold nameOfNode
      rw [hgat]
      dsimp only
      unfold nodeDisplayName
      have hnmt2 : aT.name = some nmt := hnmt
      rw [hnmt2]
      rfl
  refine ⟨net, hrun, ?_, ?_, ?_⟩
  · unfold edgeNamePairs
    ext x
    simp only [List.mem_toFinset, List.mem_map]
    constructor
    · rintro ⟨e2, he2, rfl⟩
      rw [hEnet] at he2
      obtain ⟨e, _, heh, hlks, hlkt⟩ := hS1E1 e2 he2
      refine ⟨e, heh, ?_⟩
      have h1 : (getNode net e2.s).bind (fun a => a.name) = some (nameOfNode h e.s) := by
        rw [hnmnet]
        exact hnameAtX2 e2.s _ (by rw [hX2lk]; exact hlks)
      have h2 : (getNode net e2.t).bind (fun a => a.name) = some (nameOfNode h e.t) := by
        rw [hnmnet]
        exact hnameAtX2 e2.t _ (by rw [hX2lk]; exact hlkt)
      obtain ⟨hh1, hh2⟩ := hnameAth e heh
      rw [h1, h2, hh1, hh2]
    · rintro ⟨e, he, rfl⟩
      obtain ⟨e2, he2, hlks, hlkt⟩ := hS1E2 e he
      refine ⟨e2, by rw [hEnet]; exact he2, ?_⟩
      have h1 : (getNode net e2.s).bind (fun a => a.name) = some (nameOfNode h e.s) := by
        rw [hnmnet]
        exact hnameAtX2 e2.s _ (by rw [hX2lk]; exact hlks)
      have h2 : (getNode net e2.t).bind (fun a => a.name) = some (nameOfNode h e.t) := by
        rw [hnmnet]
        exact hnameAtX2 e2.t _ (by rw [hX2lk]; exact hlkt)
      obtain ⟨hh1, hh2⟩ := hnameAth e he
      rw [h1, h2, hh1, hh2]
  · have hnetnames : net.nodes.map (fun p => p.2.name)
        = X2.nodes.map (fun p => p.2.name) := by
      rw [hnet, addIsroot_names, hU, names_updateMemberlist]
    rw [hnetnames, hX2names]
    ext x
    simp only [List.mem_toFinset, List.mem_map]
    constructor
    · rintro ⟨p, hp, rfl⟩
      obtain ⟨_, q, hq, hqn⟩ := hS1attr p hp
      exact ⟨q, hq, hqn.symm⟩
    · rintro ⟨q, hq, rfl⟩
      obtain ⟨nid, hnid⟩ := hresolve q hq
      obtain ⟨a, hka, han⟩ := lookup_spec hnid
      refine ⟨(nid, a), hka, ?_⟩
      obtain ⟨nm, hnm, _⟩ := hwf.2.1 q hq
      have hdisp : nodeDisplayName q.1 q.2 = nm := by
        unfold nodeDisplayName
        rw [hnm]
        rfl
      show a.name = q.2.name
      rw [han, hdisp, hnm]
  · intro q hq
    obtain ⟨nid, hnid⟩ := hresolve q hq
    refine ⟨nid, ?_, ?_⟩
    · rw [hnetlk, hX2lk]
      exact hnid
    · have h3 : mlTokenSet net nid = some (splitSp (q.2.memberList.getD [])).toFinset :=
        ((hnetml nid).trans (hUml nid)).trans (hmlX2 q hq nid hnid)
      rw [(perNodeTokens_of_mlTokenSet_some h3).1]
      obtain ⟨ml, hml⟩ := wf_memberList_some hwf hq
      have hq2 : getNode h q.1 = some q.2 := getNode_of_mem_nodup hwf.1 hq
      rw [perNodeTokens_eq_of_some hq2 hml, hml]
      rfl

/-- Isolated node: well-formed and (vacuously) downward closed, but on no
edge. -/
def c1IsoNet : Network :=
  { nodes := [(0, { name := some (pys "A"), memberList := some (pys "g1") })] }

/-- Parent-child pair whose member lists are NOT downward closed: the
child's gene g2 is missing from the parent's list. -/
def c1GrowNet : Network :=
  { nodes := [(0, { name := some (pys "A"), memberList := some (pys "g1") }),
              (1, { name := some (pys "B"), memberList := some (pys "g2") })],
    edges := [{ s := 0, t := 1 }] }

/-- Claim C1 as frozen is false in two ways.  An isolated node (c1IsoNet:
well-formed, trivially downward closed) vanishes: its gene lines find no
hierarchy node to attach to, so the round trip returns an empty node set.
And a non-downward-closed hierarchy (c1GrowNet) comes back with node A's
CD_MemberList grown from the set containing g1 to the set containing g1
and g2, because re-aggregation folds descendant genes into every
ancestor. -/
theorem c1_counterexample :
    wfHierarchy c1IsoNet ∧ downwardClosed c1IsoNet ∧
    (ddotGetHierarchy {} (generateOntologyDdotFile c1IsoNet)).map
        (fun net => net.nodes.map (fun p => p.2.name)) = Except.ok [] ∧
    c1IsoNet.nodes.map (fun p => p.2.name) = [some (pys "A")] ∧
    wfHierarchy c1GrowNet ∧ everyNodeOnEdge c1GrowNet ∧
    (ddotGetHierarchy {} (generateOntologyDdotFile c1GrowNet)).map
        (fun net => net.nodes.map (fun p => p.2.memberList)) =
      Except.ok [some (pys "g1 g2"), some (pys "g2")] ∧
    c1GrowNet.nodes.map (fun p => p.2.memberList) = [some (pys "g1"), some (pys "g2")] ∧
    (splitSp (pys "g1 g2")).toFinset ≠ (splitSp (pys "g1")).toFinset := by
  refine ⟨by decide, by decide, rfl, rfl, by decide, by decide, rfl, rfl,
    by decide⟩

/-- Well-formed, fully covered, downward-closed hierarchy instantiating
the amended round-trip theorem. -/
def c1WNet : Network :=
  { nodes := [(0, { name := some (pys "A"), memberList := some (pys "g1 g2") }),
              (1, { name := some (pys "B"), memberList := some (pys "g2") })],
    edges := [{ s := 0, t := 1 }] }

theorem c1_round_trip_witness :
    wfHierarchy c1WNet ∧ everyNodeOnEdge c1WNet ∧ downwardClosed c1WNet ∧
    ∃ net, ddotGetHierarchy {} (generateOntologyDdotFile c1WNet) = Except.ok net ∧
      edgeNamePairs net = edgeNamePairs c1WNet ∧
      (net.nodes.map (fun p => p.2.name)).toFinset
        = (c1WNet.nodes.map (fun p => p.2.name)).toFinset ∧
      ∀ q ∈ c1WNet.nodes, ∃ nid,
        lookupNodeIdByName net (nodeDisplayName q.1 q.2) = some nid ∧
        (perNodeTokens net nid).toFinset = (perNodeTokens c1WNet q.1).toFinset :=
  ⟨by decide, by decide, by decide,
    c1_round_trip c1WNet {} (by decide) (by decide) (by decide)⟩
